import Mathlib

/-!
Verification of the CDC binary codec and RPC-client glue of the gom_rust
repository.

The development shallowly embeds the Rust sources:

* src/encoding.rs : the tagged value model (CdcValue), the encoder
  (CdcEncoder::encode_value) and the decoder (CdcEncoder::decode_value);
* src/network.rs  : the error-taxonomy mapping
  (impl From<connection::reply::Error> for ConnectionError);
* src/lib.rs      : parse_connection_config and Item::equals.

Modelling conventions, fixed once here:

* Machine integers are modelled as Nat / Int with explicit wrapping.
  An i64 is an Int in [-2^63, 2^63); its wire form is 8 little-endian
  bytes of its two's complement.  An u64 / usize is a Nat below 2^64.
  An i32 is an Int in [-2^31, 2^31).
* f64 fields are modelled by their 8-byte IEEE-754 bit pattern as a Nat
  below 2^64: the codec only moves the bits (to_le_bytes / from_le_bytes),
  so this captures it exactly.  Value equality on floats is therefore
  bit-pattern equality.
* Rust Strings are modelled as their UTF-8 byte lists (List Nat).  Every
  Rust String holds valid UTF-8, and String::from_utf8_lossy is the
  identity on valid UTF-8, so decode_string returning the raw bytes is
  faithful for all round-trip statements.
* Rust HashMaps are modelled as association lists; the HashMap key-set
  uniqueness invariant is part of CdcValue.wf.  Encoding iterates the
  list in order (one fixed iteration order of the HashMap).
* A Rust fn pointer (the CdcCallable of the source) is modelled by an
  opaque numeric identity (fn); the u64 handle derived from it at encode
  time (the raw_pointer of the CALLABLE arm) is carried alongside it as
  handle, since it is an address chosen at runtime.
* The decoder of the source recurses on the buffer, consuming at least
  the one tag byte before every nested call; the embedding makes that
  termination argument explicit with a fuel parameter that decreases at
  each nested value, and enters with fuel strictly larger than the
  buffer length (decode_value below), which a run of the source can
  never exhaust.
-/

namespace Gom

/-! ## Little-endian byte arithmetic -/

/-- leBytes n k is the k little-endian bytes of n, each reduced mod 256;
this is what to_le_bytes emits (with k = 8 for u64 / i64 / f64 bits). -/
def leBytes (n : Nat) : Nat → List Nat
  | 0 => []
  | k + 1 => n % 256 :: leBytes (n / 256) k

/-- leValue reads a little-endian byte list back as a Nat, mirroring
from_le_bytes; each byte is reduced mod 256 as a u8 is. -/
def leValue : List Nat → Nat
  | [] => 0
  | b :: tl => b % 256 + 256 * leValue tl

theorem leBytes_length (n k : Nat) : (leBytes n k).length = k := by
  induction k generalizing n with
  | zero => rfl
  | succ k ih => simp [leBytes, ih]

theorem leValue_leBytes (k n : Nat) : leValue (leBytes n k) = n % 256 ^ k := by
  induction k generalizing n with
  | zero => simp [leBytes, leValue, Nat.mod_one]
  | succ k ih =>
    have hdecomp : n = 256 ^ (k + 1) * (n / 256 / 256 ^ k) +
        (n % 256 + 256 * (n / 256 % 256 ^ k)) := by
      have h1 : n = 256 * (n / 256) + n % 256 := (Nat.div_add_mod n 256).symm
      have h2 : n / 256 = 256 ^ k * (n / 256 / 256 ^ k) + n / 256 % 256 ^ k :=
        (Nat.div_add_mod (n / 256) (256 ^ k)).symm
      calc n = 256 * (n / 256) + n % 256 := h1
        _ = 256 * (256 ^ k * (n / 256 / 256 ^ k) + n / 256 % 256 ^ k) + n % 256 := by
              rw [← h2]
        _ = 256 ^ (k + 1) * (n / 256 / 256 ^ k) +
              (n % 256 + 256 * (n / 256 % 256 ^ k)) := by ring
    have hlt : n % 256 + 256 * (n / 256 % 256 ^ k) < 256 ^ (k + 1) := by
      have ha : n % 256 < 256 := Nat.mod_lt _ (by norm_num)
      have hb : n / 256 % 256 ^ k < 256 ^ k :=
        Nat.mod_lt _ (Nat.pos_pow_of_pos k (by norm_num))
      have : 256 * (n / 256 % 256 ^ k) + 256 ≤ 256 * 256 ^ k := by
        have := Nat.succ_le_of_lt hb
        calc 256 * (n / 256 % 256 ^ k) + 256 = 256 * (n / 256 % 256 ^ k + 1) := by ring
          _ ≤ 256 * 256 ^ k := Nat.mul_le_mul_left 256 this
      have hpow : 256 ^ (k + 1) = 256 * 256 ^ k := by ring
      omega
    calc leValue (leBytes n (k + 1))
        = n % 256 % 256 + 256 * leValue (leBytes (n / 256) k) := by
          simp [leBytes, leValue]
      _ = n % 256 + 256 * (n / 256 % 256 ^ k) := by
          rw [Nat.mod_mod_of_dvd _ (by norm_num), ih]
      _ = n % 256 ^ (k + 1) := by
          conv_rhs => rw [hdecomp]
          rw [Nat.mul_add_mod]
          exact (Nat.mod_eq_of_lt hlt).symm

theorem leValue_leBytes8 (n : Nat) (h : n < 2 ^ 64) :
    leValue (leBytes n 8) = n := by
  have h256 : (256 : Nat) ^ 8 = 2 ^ 64 := by norm_num
  rw [leValue_leBytes, h256, Nat.mod_eq_of_lt h]

/-! ## Machine-integer conversions -/

/-- encInt64 i is i64::to_le_bytes: the 8 little-endian bytes of the
two's complement of i. -/
def encInt64 (i : Int) : List Nat := leBytes (i % (2 ^ 64)).toNat 8

/-- i64OfBytes reads 8 bytes as i64::from_le_bytes. -/
def i64OfBytes (l : List Nat) : Int :=
  let n := leValue l
  if n < 2 ^ 63 then (n : Int) else (n : Int) - 2 ^ 64

/-- usizeOfInt i is the value of (i as usize) on a 64-bit target. -/
def usizeOfInt (i : Int) : Nat := (i % (2 ^ 64)).toNat

/-- i32OfInt i is the value of (i as i32). -/
def i32OfInt (i : Int) : Int :=
  let n := i % (2 ^ 32)
  if n < 2 ^ 31 then n else n - 2 ^ 32

theorem encInt64_length (i : Int) : (encInt64 i).length = 8 := leBytes_length _ _

theorem i64OfBytes_encInt64 (i : Int) (h0 : -(2 ^ 63) ≤ i) (h1 : i < 2 ^ 63) :
    i64OfBytes (encInt64 i) = i := by
  have p64i : ((2 : Int) ^ 64) = 18446744073709551616 := by norm_num
  have p63i : ((2 : Int) ^ 63) = 9223372036854775808 := by norm_num
  have p64n : ((2 : Nat) ^ 64) = 18446744073709551616 := by norm_num
  have p63n : ((2 : Nat) ^ 63) = 9223372036854775808 := by norm_num
  have hnat : (i % (2 ^ 64)).toNat < 2 ^ 64 := by
    simp only [p64i, p64n] at *
    omega
  rw [encInt64, i64OfBytes]
  simp only [leValue_leBytes8 _ hnat]
  simp only [p64i, p63i, p64n, p63n] at *
  split <;> omega

/-- usize round trip for the 8-byte length prefixes: a length below 2^64
written by the encoder is read back verbatim by decode_int-then-as-usize. -/
theorem usizeOfInt_i64OfBytes_leBytes (n : Nat) (h : n < 2 ^ 64) :
    usizeOfInt (i64OfBytes (leBytes n 8)) = n := by
  have p64i : ((2 : Int) ^ 64) = 18446744073709551616 := by norm_num
  have p64n : ((2 : Nat) ^ 64) = 18446744073709551616 := by norm_num
  have p63n : ((2 : Nat) ^ 63) = 9223372036854775808 := by norm_num
  rw [i64OfBytes, usizeOfInt]
  simp only [leValue_leBytes8 n h]
  simp only [p64i, p64n, p63n] at *
  split <;> omega

theorem i32OfInt_of_range (i : Int) (h0 : -(2 ^ 31) ≤ i) (h1 : i < 2 ^ 31) :
    i32OfInt i = i := by
  have p32i : ((2 : Int) ^ 32) = 4294967296 := by norm_num
  have p31i : ((2 : Int) ^ 31) = 2147483648 := by norm_num
  rw [i32OfInt]
  simp only [p32i, p31i] at *
  split <;> omega

/-- encInt64 of a Nat below 2^64 (a usize length emitted through as i64)
produces the same bytes as the unsigned u64 encoding. -/
theorem encInt64_ofNat (n : Nat) (h : n < 2 ^ 64) :
    encInt64 (n : Int) = leBytes n 8 := by
  have : ((n : Int) % (2 ^ 64)).toNat = n := by
    have p64i : ((2 : Int) ^ 64) = 18446744073709551616 := by norm_num
    have p64n : ((2 : Nat) ^ 64) = 18446744073709551616 := by norm_num
    simp only [p64i, p64n] at *
    omega
  rw [encInt64, this]

/-! ## Decimal print and parse (for the Callable handle string) -/

/-- natToDecimal n is the UTF-8 byte list of u64::to_string. -/
def natToDecimal (n : Nat) : List Nat :=
  if n = 0 then [48] else (Nat.digits 10 n).reverse.map (· + 48)

/-- parseU64 models str::parse::<u64>: an optional leading plus sign (byte
43), then one or more ASCII digits, rejecting values at or above 2^64. -/
def parseU64 (s : List Nat) : Option Nat :=
  let ds := if s.head? = some 43 then s.tail else s
  if ds = [] then none
  else if ds.all (fun c => 48 ≤ c && c ≤ 57) then
    let v := ds.foldl (fun acc c => acc * 10 + (c - 48)) 0
    if v < 2 ^ 64 then some v else none
  else none

theorem foldl_reverse_map_ofDigits (L : List Nat) :
    (L.reverse.map (· + 48)).foldl (fun acc c => acc * 10 + (c - 48)) 0 =
      Nat.ofDigits 10 L := by
  induction L with
  | nil => simp [Nat.ofDigits]
  | cons d tl ih =>
    have : (d :: tl).reverse.map (· + 48) = tl.reverse.map (· + 48) ++ [d + 48] := by
      simp
    rw [this, List.foldl_append]
    simp only [List.foldl]
    rw [ih, Nat.ofDigits_cons]
    omega

theorem parseU64_natToDecimal (n : Nat) (h : n < 2 ^ 64) :
    parseU64 (natToDecimal n) = some n := by
  by_cases h0 : n = 0
  · subst h0
    simp [natToDecimal, parseU64]
  · have hne : (Nat.digits 10 n) ≠ [] := Nat.digits_ne_nil_iff_ne_zero.mpr h0
    have hlt : ∀ d ∈ Nat.digits 10 n, d < 10 := fun d hd =>
      Nat.digits_lt_base (by norm_num) hd
    have hds : (Nat.digits 10 n).reverse.map (· + 48) ≠ [] := by
      simp
      exact hne
    have hnotplus : ∀ c ∈ (Nat.digits 10 n).reverse.map (· + 48), 48 ≤ c ∧ c ≤ 57 := by
      intro c hc
      rcases List.mem_map.mp hc with ⟨d, hd, rfl⟩
      have := hlt d (List.mem_reverse.mp hd)
      omega
    rw [natToDecimal, if_neg h0, parseU64]
    have hhead : ((Nat.digits 10 n).reverse.map (· + 48)).head? ≠ some 43 := by
      intro hcontra
      have h43 := hnotplus 43 (List.mem_of_mem_head? hcontra)
      omega
    simp only [if_neg hhead, if_neg hds]
    rw [if_pos]
    · rw [foldl_reverse_map_ofDigits, Nat.ofDigits_digits]
      exact if_pos h
    · rw [List.all_eq_true]
      intro c hc
      have := hnotplus c hc
      simp only [Bool.and_eq_true, decide_eq_true_eq]
      omega

/-! ## The value model (CdcValue of src/encoding.rs)

Non-recursive payload structs of src/lib.rs are mirrored as structures;
recursive payloads (the Array / Trait / Object / Package structs) are
inlined into their constructor so that Lean accepts the mutual structural
recursion of the codec.  Strings are UTF-8 byte lists. -/

structure Item where
  id : List Nat
  category : Int
  stage : Int
  deriving DecidableEq

structure Slice where
  start : Option Int
  stop : Option Int
  deriving DecidableEq

structure Indexable where
  item : Item
  token : List Nat
  size : Int
  deriving DecidableEq

structure Command where
  name : List Nat
  deriving DecidableEq

structure CdcError where
  id : List Nat
  text : List Nat
  line : Int
  deriving DecidableEq

structure Vec2d where
  x : Nat
  y : Nat
  deriving DecidableEq

structure Vec3d where
  x : Nat
  y : Nat
  z : Nat
  deriving DecidableEq

inductive CdcValue where
  | NONE
  | BOOL (b : Bool)
  | INTEGER (i : Int)
  | FLOAT (bits : Nat)
  | STRING (s : List Nat)
  | LIST (l : List CdcValue)
  | MAP (m : List (List Nat × CdcValue))
  | SLICE (s : Slice)
  | ITEM (item : Item)
  | INDEXABLE (ix : Indexable)
  | COMMAND (c : Command)
  | CALLABLE (handle : Nat) (fn : Nat)
  | ERROR (e : CdcError)
  | TRAIT (id : List Nat) (args : List CdcValue) (kwargs : List (List Nat × CdcValue))
  | OBJECT (type_id : List Nat) (repr : List Nat) (attributes : List (List Nat × CdcValue))
  | ARRAY (project : CdcValue) (item : CdcValue) (key : List Nat) (index : List Int)
      (selected : Bool) (transformation : Option CdcValue)
  | PACKAGE (reference : List Nat) (metadata : List (List Nat × CdcValue))
  | VEC2D (v : Vec2d)
  | VEC3D (v : Vec3d)
  | RESOURCE_ACCESS
  | BLOB (data : List Nat)

/-- discriminant mirrors CdcValue::discriminant, the stable one-byte wire
tag of each variant (the CdcType numbering of src/encoding.rs). -/
def CdcValue.discriminant : CdcValue → Nat
  | .NONE => 0
  | .BOOL _ => 1
  | .INTEGER _ => 2
  | .FLOAT _ => 3
  | .STRING _ => 4
  | .LIST _ => 5
  | .MAP _ => 6
  | .SLICE _ => 7
  | .ITEM _ => 8
  | .INDEXABLE _ => 9
  | .COMMAND _ => 10
  | .CALLABLE _ _ => 11
  | .ERROR _ => 12
  | .TRAIT _ _ _ => 13
  | .OBJECT _ _ _ => 14
  | .ARRAY _ _ _ _ _ _ => 15
  | .PACKAGE _ _ => 16
  | .VEC2D _ => 17
  | .VEC3D _ => 18
  | .RESOURCE_ACCESS => 19
  | .BLOB _ => 20

/-! ## The encoder (CdcEncoder::encode_value) -/

/-- encode_string mirrors CdcEncoder::encode_string: 8-byte little-endian
byte count, then the raw UTF-8 bytes. -/
def encode_string (s : List Nat) : List Nat := leBytes s.length 8 ++ s

/-- rustFunctionStr is the UTF-8 of the "rust function" language tag the
CALLABLE arm emits. -/
def rustFunctionStr : List Nat :=
  [114, 117, 115, 116, 32, 102, 117, 110, 99, 116, 105, 111, 110]

/-- encInts is the index-path loop of the ARRAY arm: each i64 as 8
little-endian bytes, concatenated. -/
def encInts (idx : List Int) : List Nat := (idx.map encInt64).flatten

mutual

/-- encode_value mirrors the byte emission of CdcEncoder::encode_value:
push the discriminant, then the payload fields in source order.  The
recursive self-calls on freshly built INTEGER / NONE / ITEM / LIST / MAP
values in the SLICE, INDEXABLE and TRAIT arms are inlined to their
emitted bytes so the recursion stays structural.  The registry insertion
of the CALLABLE arm does not touch the buffer and is modelled separately
by encode_registry. -/
def encode_value : CdcValue → List Nat
  | .NONE => [0]
  | .BOOL b => [1, if b then 1 else 0]
  | .INTEGER i => 2 :: encInt64 i
  | .FLOAT bits => 3 :: leBytes bits 8
  | .STRING s => 4 :: encode_string s
  | .LIST l => 5 :: (leBytes l.length 8 ++ encode_list l)
  | .MAP m => 6 :: (leBytes m.length 8 ++ encode_pairs m)
  | .SLICE s =>
      7 :: ((match s.start with
             | some v => 2 :: encInt64 v
             | none => [0]) ++
            (match s.stop with
             | some v => 2 :: encInt64 v
             | none => [0]))
  | .ITEM it => 8 :: (encode_string it.id ++ encInt64 it.category ++ encInt64 it.stage)
  | .INDEXABLE ix =>
      9 :: ((8 :: (encode_string ix.item.id ++ encInt64 ix.item.category ++
              encInt64 ix.item.stage)) ++ encode_string ix.token ++ encInt64 ix.size)
  | .COMMAND c => 10 :: encode_string c.name
  | .CALLABLE handle _ =>
      11 :: (encode_string (natToDecimal handle) ++ encode_string rustFunctionStr)
  | .ERROR e => 12 :: (encode_string e.id ++ encode_string e.text ++ encInt64 e.line)
  | .TRAIT id args kwargs =>
      13 :: (encode_string id ++
             (5 :: (leBytes args.length 8 ++ encode_list args)) ++
             (6 :: (leBytes kwargs.length 8 ++ encode_pairs kwargs)))
  | .OBJECT tid rep attrs =>
      14 :: (encode_string tid ++ encode_string rep ++ encInt64 (attrs.length : Int) ++
             encode_pairs attrs)
  | .ARRAY p it k idx sel tr =>
      15 :: (encode_value p ++ encode_value it ++ encode_string k ++
             encInt64 (idx.length : Int) ++ encInts idx ++
             (if sel then 1 else 0) ::
             (match tr with
              | some t => 1 :: encode_value t
              | none => [0]))
  | .PACKAGE ref meta =>
      16 :: (encode_string ref ++ encInt64 (meta.length : Int) ++ encode_pairs meta)
  | .VEC2D v => 17 :: (leBytes v.x 8 ++ leBytes v.y 8)
  | .VEC3D v => 18 :: (leBytes v.x 8 ++ leBytes v.y 8 ++ leBytes v.z 8)
  | .RESOURCE_ACCESS => [19]
  | .BLOB data => 20 :: (leBytes data.length 8 ++ data)

/-- encode_list is the element loop of the LIST arm. -/
def encode_list : List CdcValue → List Nat
  | [] => []
  | v :: tl => encode_value v ++ encode_list tl

/-- encode_pairs is the (key, value) loop of the MAP / OBJECT / PACKAGE
arms. -/
def encode_pairs : List (List Nat × CdcValue) → List Nat
  | [] => []
  | (k, v) :: tl => encode_string k ++ encode_value v ++ encode_pairs tl

end

example : encode_value (.INTEGER 42) = [2, 42, 0, 0, 0, 0, 0, 0, 0] := by decide

example : encode_value (.LIST [.NONE, .BOOL true]) =
    [5, 2, 0, 0, 0, 0, 0, 0, 0, 0, 1, 1] := by decide

/-! ## Well-formedness: the ranges every Rust value satisfies by typing

wf is the property of being the image of an actual Rust CdcValue: every
i64 / i32 / u64 field is in range, every f64 bit pattern fits 8 bytes,
every length that is emitted as an 8-byte prefix is below 2^64 (it is a
usize), and HashMap key lists are duplicate-free (the HashMap invariant). -/

def i64Range (i : Int) : Bool := decide (-(2 ^ 63) ≤ i) && decide (i < 2 ^ 63)

def i32Range (i : Int) : Bool := decide (-(2 ^ 31) ≤ i) && decide (i < 2 ^ 31)

def u64Range (n : Nat) : Bool := decide (n < 2 ^ 64)

def strWf (s : List Nat) : Bool := decide (s.length < 2 ^ 64)

def optI64 : Option Int → Bool
  | some v => i64Range v
  | none => true

def itemWf (it : Item) : Bool :=
  strWf it.id && i32Range it.category && i32Range it.stage

def keysNodup (m : List (List Nat × CdcValue)) : Bool :=
  decide (m.map Prod.fst).Nodup

mutual

def CdcValue.wf : CdcValue → Bool
  | .NONE => true
  | .BOOL _ => true
  | .INTEGER i => i64Range i
  | .FLOAT bits => u64Range bits
  | .STRING s => strWf s
  | .LIST l => decide (l.length < 2 ^ 64) && wf_list l
  | .MAP m => decide (m.length < 2 ^ 64) && keysNodup m && wf_pairs m
  | .SLICE s => optI64 s.start && optI64 s.stop
  | .ITEM it => itemWf it
  | .INDEXABLE ix => itemWf ix.item && strWf ix.token && i64Range ix.size
  | .COMMAND c => strWf c.name
  | .CALLABLE handle _ => u64Range handle
  | .ERROR e => strWf e.id && strWf e.text && i64Range e.line
  | .TRAIT id args kwargs =>
      strWf id && decide (args.length < 2 ^ 64) && decide (kwargs.length < 2 ^ 64) &&
        keysNodup kwargs && wf_list args && wf_pairs kwargs
  | .OBJECT tid rep attrs =>
      strWf tid && strWf rep && decide (attrs.length < 2 ^ 64) && keysNodup attrs &&
        wf_pairs attrs
  | .ARRAY p it k idx _ tr =>
      CdcValue.wf p && CdcValue.wf it && strWf k && decide (idx.length < 2 ^ 64) &&
        idx.all i64Range &&
        (match tr with
         | some t => CdcValue.wf t
         | none => true)
  | .PACKAGE ref meta =>
      strWf ref && decide (meta.length < 2 ^ 64) && keysNodup meta && wf_pairs meta
  | .VEC2D v => u64Range v.x && u64Range v.y
  | .VEC3D v => u64Range v.x && u64Range v.y && u64Range v.z
  | .RESOURCE_ACCESS => true
  | .BLOB data => decide (data.length < 2 ^ 64)

def wf_list : List CdcValue → Bool
  | [] => true
  | v :: tl => CdcValue.wf v && wf_list tl

def wf_pairs : List (List Nat × CdcValue) → Bool
  | [] => true
  | (k, v) :: tl => strWf k && CdcValue.wf v && wf_pairs tl

end

mutual

/-- callableFree holds when no CALLABLE occurs anywhere in the value
("not containing a Callable" in the words of the specification). -/
def CdcValue.callableFree : CdcValue → Bool
  | .CALLABLE _ _ => false
  | .LIST l => cf_list l
  | .MAP m => cf_pairs m
  | .TRAIT _ args kwargs => cf_list args && cf_pairs kwargs
  | .OBJECT _ _ attrs => cf_pairs attrs
  | .ARRAY p it _ _ _ tr =>
      CdcValue.callableFree p && CdcValue.callableFree it &&
        (match tr with
         | some t => CdcValue.callableFree t
         | none => true)
  | .PACKAGE _ meta => cf_pairs meta
  | _ => true

def cf_list : List CdcValue → Bool
  | [] => true
  | v :: tl => CdcValue.callableFree v && cf_list tl

def cf_pairs : List (List Nat × CdcValue) → Bool
  | [] => true
  | (_, v) :: tl => CdcValue.callableFree v && cf_pairs tl

end

/-! ## The callable registry (registeredc_callables of CdcEncoder) -/

/-- Registry models the HashMap from u64 handles to fn pointers. -/
abbrev Registry := List (Nat × Nat)

/-- registryInsert models HashMap::insert; prepending shadows an earlier
binding just as insert overwrites it. -/
def registryInsert (env : Registry) (k f : Nat) : Registry := (k, f) :: env

/-- registryGet models HashMap::get. -/
def registryGet (env : Registry) (k : Nat) : Option Nat :=
  (env.find? (fun p => p.1 == k)).map (fun p => p.2)

theorem registryGet_insert (env : Registry) (k f : Nat) :
    registryGet (registryInsert env k f) k = some f := by
  simp [registryGet, registryInsert, List.find?]

mutual

/-- encode_registry collects the registry insertions CdcEncoder::encode_value
performs while traversing the value (only its CALLABLE arm inserts:
registeredc_callables.insert(raw_pointer, func)), threading the registry
through the same traversal order the encoder uses. -/
def encode_registry (env : Registry) : CdcValue → Registry
  | .CALLABLE handle f => registryInsert env handle f
  | .LIST l => encode_registry_list env l
  | .MAP m => encode_registry_pairs env m
  | .TRAIT _ args kwargs => encode_registry_pairs (encode_registry_list env args) kwargs
  | .OBJECT _ _ attrs => encode_registry_pairs env attrs
  | .ARRAY p it _ _ _ tr =>
      match tr with
      | some t => encode_registry (encode_registry (encode_registry env p) it) t
      | none => encode_registry (encode_registry env p) it
  | .PACKAGE _ meta => encode_registry_pairs env meta
  | _ => env

def encode_registry_list (env : Registry) : List CdcValue → Registry
  | [] => env
  | v :: tl => encode_registry_list (encode_registry env v) tl

def encode_registry_pairs (env : Registry) : List (List Nat × CdcValue) → Registry
  | [] => env
  | (_, v) :: tl => encode_registry_pairs (encode_registry env v) tl

end

/-! ## The decoder (CdcEncoder::decode_value)

decode_value of the source consumes a mutable slice and returns the value;
the embedding passes the remaining suffix explicitly.  The source
terminates because every nested decode_value call first consumes the one
tag byte; the embedding carries that argument as a fuel parameter
decremented at each nested value, and the wrapper decode_value enters with
fuel (length + 1), which a source run can never exhaust. -/

inductive DecodeError where
  | MissingData
  | UnknownType
  | MissingFunction
  deriving DecidableEq

/-- decode_int mirrors CdcEncoder::decode_int: 8 little-endian bytes read
as a signed i64. -/
def decode_int (b : List Nat) : Except DecodeError (Int × List Nat) :=
  if b.length < 8 then .error .MissingData
  else .ok (i64OfBytes (b.take 8), b.drop 8)

/-- decode_string mirrors CdcEncoder::decode_string: decode_int then an
as-usize cast of the length, then that many raw bytes (from_utf8_lossy is
the identity on the valid UTF-8 every encoded Rust String holds). -/
def decode_string (b : List Nat) : Except DecodeError (List Nat × List Nat) :=
  match decode_int b with
  | .error e => .error e
  | .ok (len, r) =>
    let n := usizeOfInt len
    if r.length < n then .error .MissingData
    else .ok (r.take n, r.drop n)

/-- decode_ints is the index-path loop of the ARRAY arm. -/
def decode_ints : Nat → List Nat → Except DecodeError (List Int × List Nat)
  | 0, b => .ok ([], b)
  | n + 1, b =>
    match decode_int b with
    | .error e => .error e
    | .ok (i, r) =>
      match decode_ints n r with
      | .error e => .error e
      | .ok (is, r2) => .ok (i :: is, r2)

/-- decode_values is the element loop of the LIST arm, parameterised by
the nested-value decoder. -/
def decode_values (dec : List Nat → Except DecodeError (CdcValue × List Nat)) :
    Nat → List Nat → Except DecodeError (List CdcValue × List Nat)
  | 0, b => .ok ([], b)
  | n + 1, b =>
    match dec b with
    | .error e => .error e
    | .ok (v, r) =>
      match decode_values dec n r with
      | .error e => .error e
      | .ok (vs, r2) => .ok (v :: vs, r2)

/-- decode_kv_pairs is the (key, value) loop of the MAP / OBJECT / PACKAGE
arms: a string key then a nested value, repeated. -/
def decode_kv_pairs (dec : List Nat → Except DecodeError (CdcValue × List Nat)) :
    Nat → List Nat → Except DecodeError (List (List Nat × CdcValue) × List Nat)
  | 0, b => .ok ([], b)
  | n + 1, b =>
    match decode_string b with
    | .error e => .error e
    | .ok (k, r) =>
      match dec r with
      | .error e => .error e
      | .ok (v, r2) =>
        match decode_kv_pairs dec n r2 with
        | .error e => .error e
        | .ok (ps, r3) => .ok ((k, v) :: ps, r3)

/-- dstep is the `?` propagation of the source on a decode step that
returns a value and the advanced buffer: stop on error, continue on
success. -/
def dstep {g1 g2 : Type} (x : Except DecodeError (g1 × List Nat))
    (g : g1 → List Nat → Except DecodeError (g2 × List Nat)) :
    Except DecodeError (g2 × List Nat) :=
  match x with
  | .error e => .error e
  | .ok (v, r) => g v r

/-- dtry is the `?` propagation of the source on a pure check that does
not touch the buffer. -/
def dtry {g1 g2 : Type} (x : Except DecodeError g1)
    (g : g1 → Except DecodeError g2) : Except DecodeError g2 :=
  match x with
  | .error e => .error e
  | .ok v => g v

/-- dbyte reads one byte, failing with missing-data on an empty buffer
(the buffer-is-empty checks of the source). -/
def dbyte {g1 : Type} (g : Nat → List Nat → Except DecodeError (g1 × List Nat)) :
    List Nat → Except DecodeError (g1 × List Nat)
  | [] => .error .MissingData
  | x :: r => g x r

/-- sliceSlot is the per-slot check of the SLICE arm: the decoded nested
value must be NONE or INTEGER, anything else is unknown-type. -/
def sliceSlot : CdcValue → Except DecodeError (Option Int)
  | .NONE => .ok none
  | .INTEGER v => .ok (some v)
  | _ => .error .UnknownType

/-- expectItemV is the nested-value check of the INDEXABLE arm: the first
nested value must be an ITEM. -/
def expectItemV : CdcValue → Except DecodeError Item
  | .ITEM it => .ok it
  | _ => .error .UnknownType

/-- expectListV is the args check of the TRAIT arm. -/
def expectListV : CdcValue → Except DecodeError (List CdcValue)
  | .LIST l => .ok l
  | _ => .error .UnknownType

/-- expectMapV is the kwargs check of the TRAIT arm. -/
def expectMapV : CdcValue → Except DecodeError (List (List Nat × CdcValue))
  | .MAP m => .ok m
  | _ => .error .UnknownType

/-- parseHandle is pointer_str.parse::<u64>() of the CALLABLE arm, with
parse failure mapped to unknown-type as in the source. -/
def parseHandle (s : List Nat) : Except DecodeError Nat :=
  match parseU64 s with
  | some p => .ok p
  | none => .error .UnknownType

/-- lookupCallable is the registry lookup of the CALLABLE arm, with a
missing handle mapped to missing-function. -/
def lookupCallable (env : Registry) (p : Nat) : Except DecodeError Nat :=
  match registryGet env p with
  | some f => .ok f
  | none => .error .MissingFunction

/-- decode_array_trans is the tail of the ARRAY arm (the one-byte
has-transformation flag and the conditional nested transformation value),
parameterised by the nested-value decoder.  The flag byte is consumed in
both branches, as in the source. -/
def decode_array_trans (dec : List Nat → Except DecodeError (CdcValue × List Nat)) :
    List Nat → Except DecodeError (Option CdcValue × List Nat)
  | [] => .error .MissingData
  | flag :: rest =>
    if flag != 0 then
      match dec rest with
      | .error e => .error e
      | .ok (t, r) => .ok (some t, r)
    else .ok (none, rest)

/-- decode_valueF is CdcEncoder::decode_value with the fuel parameter made
explicit; the match arms appear in source order and the `?` propagation is
written with dstep / dtry / dbyte.  Exhausted fuel returns missing-data,
the same error an over-short buffer produces, and the wrapper decode_value
below always supplies enough fuel. -/
def decode_valueF (env : Registry) : Nat → List Nat → Except DecodeError (CdcValue × List Nat)
  | 0, _ => .error .MissingData
  | fuel + 1, b =>
    match b with
    | [] => .error .MissingData
    | t :: b =>
      if t = 0 then .ok (.NONE, b)
      else if t = 1 then
        dbyte (fun x b2 => .ok (.BOOL (x != 0), b2)) b
      else if t = 2 then
        dstep (decode_int b) (fun i r => .ok (.INTEGER i, r))
      else if t = 3 then
        if b.length < 8 then .error .MissingData
        else .ok (.FLOAT (leValue (b.take 8)), b.drop 8)
      else if t = 4 then
        dstep (decode_string b) (fun s r => .ok (.STRING s, r))
      else if t = 5 then
        dstep (decode_int b) (fun len r =>
          dstep (decode_values (decode_valueF env fuel) (usizeOfInt len) r)
            (fun vs r2 => .ok (.LIST vs, r2)))
      else if t = 6 then
        dstep (decode_int b) (fun len r =>
          dstep (decode_kv_pairs (decode_valueF env fuel) (usizeOfInt len) r)
            (fun ps r2 => .ok (.MAP ps, r2)))
      else if t = 7 then
        dstep (decode_valueF env fuel b) (fun start r1 =>
          dstep (decode_valueF env fuel r1) (fun stop r2 =>
            dtry (sliceSlot start) (fun so =>
              dtry (sliceSlot stop) (fun tp =>
                .ok (.SLICE ⟨so, tp⟩, r2)))))
      else if t = 9 then
        dstep (decode_valueF env fuel b) (fun itemv r1 =>
          dstep (decode_string r1) (fun token r2 =>
            dstep (decode_int r2) (fun size r3 =>
              dtry (expectItemV itemv) (fun it =>
                .ok (.INDEXABLE ⟨it, token, size⟩, r3)))))
      else if t = 18 then
        if b.length < 24 then .error .MissingData
        else .ok (.VEC3D ⟨leValue (b.take 8), leValue ((b.drop 8).take 8),
            leValue ((b.drop 16).take 8)⟩, b.drop 24)
      else if t = 17 then
        if b.length < 16 then .error .MissingData
        else .ok (.VEC2D ⟨leValue (b.take 8), leValue ((b.drop 8).take 8)⟩, b.drop 16)
      else if t = 10 then
        dstep (decode_string b) (fun name r => .ok (.COMMAND ⟨name⟩, r))
      else if t = 20 then
        dstep (decode_int b) (fun len r =>
          if r.length < usizeOfInt len then .error .MissingData
          else .ok (.BLOB (r.take (usizeOfInt len)), r.drop (usizeOfInt len)))
      else if t = 11 then
        dstep (decode_string b) (fun ptr r1 =>
          dtry (parseHandle ptr) (fun p =>
            dtry (lookupCallable env p) (fun f =>
              .ok (.CALLABLE p f, r1))))
      else if t = 12 then
        dstep (decode_string b) (fun id r1 =>
          dstep (decode_string r1) (fun text r2 =>
            dstep (decode_int r2) (fun line r3 =>
              .ok (.ERROR ⟨id, text, line⟩, r3))))
      else if t = 13 then
        dstep (decode_string b) (fun id r1 =>
          dstep (decode_valueF env fuel r1) (fun argsv r2 =>
            dstep (decode_valueF env fuel r2) (fun kwargsv r3 =>
              dtry (expectListV argsv) (fun args =>
                dtry (expectMapV kwargsv) (fun kwargs =>
                  .ok (.TRAIT id args kwargs, r3))))))
      else if t = 8 then
        dstep (decode_string b) (fun id r1 =>
          dstep (decode_int r1) (fun category r2 =>
            dstep (decode_int r2) (fun stage r3 =>
              .ok (.ITEM ⟨id, i32OfInt category, i32OfInt stage⟩, r3))))
      else if t = 19 then .ok (.RESOURCE_ACCESS, b)
      else if t = 14 then
        dstep (decode_string b) (fun tid r1 =>
          dstep (decode_string r1) (fun rep r2 =>
            dstep (decode_int r2) (fun cnt r3 =>
              dstep (decode_kv_pairs (decode_valueF env fuel) (usizeOfInt cnt) r3)
                (fun attrs r4 => .ok (.OBJECT tid rep attrs, r4)))))
      else if t = 15 then
        dstep (decode_valueF env fuel b) (fun project r1 =>
          dstep (decode_valueF env fuel r1) (fun item r2 =>
            dstep (decode_string r2) (fun key r3 =>
              dstep (decode_int r3) (fun ilen r4 =>
                dstep (decode_ints (usizeOfInt ilen) r4) (fun idx r5 =>
                  dbyte (fun selb r6 =>
                    dstep (decode_array_trans (decode_valueF env fuel) r6)
                      (fun tr r7 =>
                        .ok (.ARRAY project item key idx (selb != 0) tr, r7))) r5)))))
      else if t = 16 then
        dstep (decode_string b) (fun ref r1 =>
          dstep (decode_int r1) (fun cnt r2 =>
            dstep (decode_kv_pairs (decode_valueF env fuel) (usizeOfInt cnt) r2)
              (fun meta r3 => .ok (.PACKAGE ref meta, r3))))
      else .error .UnknownType

/-- decode_value is CdcEncoder::decode_value: decode_valueF entered with
fuel that one source run can never exhaust, since the source consumes at
least one byte before each nested value decode. -/
def decode_value (env : Registry) (b : List Nat) : Except DecodeError (CdcValue × List Nat) :=
  decode_valueF env (b.length + 1) b

example : decode_value [] (encode_value (.INTEGER 42)) = .ok (.INTEGER 42, []) := rfl

example : decode_value [] (encode_value (.LIST [.NONE, .BOOL true]) ++ [9, 9]) =
    .ok (.LIST [.NONE, .BOOL true], [9, 9]) := rfl

example : decode_value [] [42] = .error .UnknownType := rfl

/-! ## Round trip: the decoder inverts the encoder

decode_encode_valueF below is the workhorse: decoding the encoding of any
well-formed callable-free value, followed by any suffix, succeeds with
exactly that value and leaves exactly the suffix, at any fuel above the
encoding length. -/

theorem take_append_len {a : Type} (xs : List a) (n : Nat) (h : xs.length = n)
    (ys : List a) : (xs ++ ys).take n = xs := by
  rw [← h, List.take_left]

theorem drop_append_len {a : Type} (xs : List a) (n : Nat) (h : xs.length = n)
    (ys : List a) : (xs ++ ys).drop n = ys := by
  rw [← h, List.drop_left]

theorem decode_int_append (xs : List Nat) (h : xs.length = 8) (rest : List Nat) :
    decode_int (xs ++ rest) = .ok (i64OfBytes xs, rest) := by
  rw [decode_int, if_neg (by simp [h])]
  rw [take_append_len xs 8 h, drop_append_len xs 8 h]

theorem decode_int_encInt64 (i : Int)
    (h0 : -(2 ^ 63) ≤ i) (h1 : i < 2 ^ 63) (rest : List Nat) :
    decode_int (encInt64 i ++ rest) = .ok (i, rest) := by
  rw [decode_int_append _ (encInt64_length i), i64OfBytes_encInt64 i h0 h1]

theorem decode_int_leBytes (n : Nat) (h : n < 2 ^ 64) (rest : List Nat) :
    decode_int (leBytes n 8 ++ rest) = .ok (i64OfBytes (leBytes n 8), rest) :=
  decode_int_append _ (leBytes_length n 8) rest

theorem decode_string_append (s : List Nat) (h : s.length < 2 ^ 64) (rest : List Nat) :
    decode_string (encode_string s ++ rest) = .ok (s, rest) := by
  rw [encode_string, List.append_assoc, decode_string,
    decode_int_leBytes s.length h (s ++ rest)]
  simp only [usizeOfInt_i64OfBytes_leBytes s.length h]
  rw [if_neg (by simp)]
  rw [List.take_left, List.drop_left]

theorem decode_ints_encInts (idx : List Int)
    (h : ∀ i ∈ idx, i64Range i = true) (rest : List Nat) :
    decode_ints idx.length (encInts idx ++ rest) = .ok (idx, rest) := by
  induction idx generalizing rest with
  | nil => simp [encInts, decode_ints]
  | cons i tl ih =>
    have hi := h i (List.mem_cons_self i tl)
    simp only [i64Range, Bool.and_eq_true, decide_eq_true_eq] at hi
    have henc : encInts (i :: tl) = encInt64 i ++ encInts tl := by
      simp [encInts]
    rw [List.length_cons, henc, List.append_assoc, decode_ints,
      decode_int_encInt64 i hi.1 hi.2]
    simp only [ih (fun j hj => h j (List.mem_cons_of_mem i hj))]

theorem decode_values_encode_list
    (dec : List Nat → Except DecodeError (CdcValue × List Nat))
    (l : List CdcValue)
    (hdec : ∀ v ∈ l, ∀ rest, dec (encode_value v ++ rest) = .ok (v, rest)) :
    ∀ rest, decode_values dec l.length (encode_list l ++ rest) = .ok (l, rest) := by
  induction l with
  | nil => intro rest; simp [encode_list, decode_values]
  | cons v tl ih =>
    intro rest
    rw [List.length_cons, encode_list, List.append_assoc, decode_values,
      hdec v (List.mem_cons_self v tl)]
    simp only [ih (fun w hw => hdec w (List.mem_cons_of_mem v hw))]

theorem decode_kv_pairs_encode_pairs
    (dec : List Nat → Except DecodeError (CdcValue × List Nat))
    (m : List (List Nat × CdcValue))
    (hkeys : ∀ p ∈ m, (p.1).length < 2 ^ 64)
    (hdec : ∀ p ∈ m, ∀ rest, dec (encode_value p.2 ++ rest) = .ok (p.2, rest)) :
    ∀ rest, decode_kv_pairs dec m.length (encode_pairs m ++ rest) = .ok (m, rest) := by
  induction m with
  | nil => intro rest; simp [encode_pairs, decode_kv_pairs]
  | cons p tl ih =>
    intro rest
    obtain ⟨k, v⟩ := p
    have hk : k.length < 2 ^ 64 := hkeys (k, v) (List.mem_cons_self (k, v) tl)
    have hv : ∀ r2, dec (encode_value v ++ r2) = .ok (v, r2) := fun r2 =>
      hdec (k, v) (List.mem_cons_self (k, v) tl) r2
    rw [List.length_cons, encode_pairs, List.append_assoc, List.append_assoc,
      decode_kv_pairs, decode_string_append k hk _]
    simp only [hv, ih (fun q hq => hkeys q (List.mem_cons_of_mem (k, v) hq))
      (fun q hq => hdec q (List.mem_cons_of_mem (k, v) hq))]

theorem wf_list_mem {l : List CdcValue} (h : wf_list l = true) :
    ∀ v ∈ l, CdcValue.wf v = true := by
  induction l with
  | nil => intro v hv; cases hv
  | cons w tl ih =>
    rw [wf_list, Bool.and_eq_true] at h
    intro v hv
    rcases List.mem_cons.mp hv with rfl | hv
    · exact h.1
    · exact ih h.2 v hv

theorem cf_list_mem {l : List CdcValue} (h : cf_list l = true) :
    ∀ v ∈ l, CdcValue.callableFree v = true := by
  induction l with
  | nil => intro v hv; cases hv
  | cons w tl ih =>
    rw [cf_list, Bool.and_eq_true] at h
    intro v hv
    rcases List.mem_cons.mp hv with rfl | hv
    · exact h.1
    · exact ih h.2 v hv

theorem wf_pairs_mem {m : List (List Nat × CdcValue)} (h : wf_pairs m = true) :
    ∀ p ∈ m, strWf p.1 = true ∧ CdcValue.wf p.2 = true := by
  induction m with
  | nil => intro p hp; cases hp
  | cons q tl ih =>
    obtain ⟨k, v⟩ := q
    rw [wf_pairs, Bool.and_eq_true, Bool.and_eq_true] at h
    intro p hp
    rcases List.mem_cons.mp hp with rfl | hp
    · exact ⟨h.1.1, h.1.2⟩
    · exact ih h.2 p hp

theorem cf_pairs_mem {m : List (List Nat × CdcValue)} (h : cf_pairs m = true) :
    ∀ p ∈ m, CdcValue.callableFree p.2 = true := by
  induction m with
  | nil => intro p hp; cases hp
  | cons q tl ih =>
    obtain ⟨k, v⟩ := q
    rw [cf_pairs, Bool.and_eq_true] at h
    intro p hp
    rcases List.mem_cons.mp hp with rfl | hp
    · exact h.1
    · exact ih h.2 p hp

theorem mem_encode_list_length {l : List CdcValue} {v : CdcValue} (h : v ∈ l) :
    (encode_value v).length ≤ (encode_list l).length := by
  induction l with
  | nil => cases h
  | cons w tl ih =>
    rw [encode_list, List.length_append]
    rcases List.mem_cons.mp h with rfl | h
    · omega
    · have := ih h
      omega

theorem mem_encode_pairs_length {m : List (List Nat × CdcValue)}
    {p : List Nat × CdcValue} (h : p ∈ m) :
    (encode_value p.2).length ≤ (encode_pairs m).length := by
  induction m with
  | nil => cases h
  | cons q tl ih =>
    obtain ⟨k, v⟩ := q
    rw [encode_pairs, List.length_append, List.length_append]
    rcases List.mem_cons.mp h with rfl | h
    · dsimp only
      omega
    · have := ih h
      omega

theorem encode_string_length (s : List Nat) :
    (encode_string s).length = 8 + s.length := by
  simp [encode_string, leBytes_length]

theorem drop_append_add {a : Type} (xs ys : List a) (m : Nat) :
    (xs ++ ys).drop (xs.length + m) = ys.drop m := by
  induction xs with
  | nil => simp
  | cons x tl ih => simpa [Nat.succ_add] using ih

theorem ifNat_bne (sel : Bool) : ((if sel then (1 : Nat) else 0) != 0) = sel := by
  cases sel <;> rfl

/-- decode_encode_valueF: decoding the encoding of a well-formed
callable-free value followed by any suffix succeeds with exactly that
value and exactly that suffix, at any fuel above the encoding length. -/
theorem decode_encode_valueF (env : Registry) :
    ∀ fuel (v : CdcValue), CdcValue.wf v = true → CdcValue.callableFree v = true →
      (encode_value v).length < fuel →
      ∀ rest, decode_valueF env fuel (encode_value v ++ rest) = .ok (v, rest) := by
  intro fuel
  induction fuel with
  | zero =>
    intro v _ _ hlen
    omega
  | succ fuel ih =>
    intro v hwf hcf hlen rest
    cases v with
    | NONE => simp [encode_value, decode_valueF, dstep, dtry, dbyte]
    | RESOURCE_ACCESS => simp [encode_value, decode_valueF, dstep, dtry, dbyte]
    | BOOL b => cases b <;> simp [encode_value, decode_valueF, dstep, dtry, dbyte]
    | INTEGER i =>
      simp only [CdcValue.wf, i64Range, Bool.and_eq_true, decide_eq_true_eq] at hwf
      simp [encode_value, decode_valueF, dstep, dtry, dbyte, decode_int_encInt64 i hwf.1 hwf.2]
    | FLOAT bits =>
      simp only [CdcValue.wf, u64Range, decide_eq_true_eq] at hwf
      have h8 : (leBytes bits 8).length = 8 := leBytes_length _ _
      simp [encode_value, decode_valueF, dstep, dtry, dbyte, h8, take_append_len _ 8 h8,
        drop_append_len _ 8 h8, leValue_leBytes8 bits hwf]
    | STRING s =>
      simp only [CdcValue.wf, strWf, decide_eq_true_eq] at hwf
      simp [encode_value, decode_valueF, dstep, dtry, dbyte, decode_string_append s hwf]
    | LIST l =>
      simp only [CdcValue.wf, Bool.and_eq_true, decide_eq_true_eq] at hwf
      obtain ⟨h64, hwfl⟩ := hwf
      simp only [CdcValue.callableFree] at hcf
      simp only [encode_value, List.length_cons, List.length_append,
        leBytes_length] at hlen
      have helems : ∀ w ∈ l, ∀ r,
          decode_valueF env fuel (encode_value w ++ r) = .ok (w, r) := by
        intro w hw r
        have hle := mem_encode_list_length hw
        exact ih w (wf_list_mem hwfl w hw) (cf_list_mem hcf w hw) (by omega) r
      rw [show encode_value (.LIST l) = 5 :: (leBytes l.length 8 ++ encode_list l)
        from rfl, List.cons_append, List.append_assoc]
      simp [decode_valueF, dstep, dtry, dbyte, decode_int_leBytes l.length h64 _,
        usizeOfInt_i64OfBytes_leBytes l.length h64,
        decode_values_encode_list (decode_valueF env fuel) l helems rest]
    | MAP m =>
      simp only [CdcValue.wf, Bool.and_eq_true, decide_eq_true_eq] at hwf
      obtain ⟨⟨h64, hnd⟩, hwfm⟩ := hwf
      simp only [CdcValue.callableFree] at hcf
      simp only [encode_value, List.length_cons, List.length_append,
        leBytes_length] at hlen
      have hkeys : ∀ p ∈ m, (p.1).length < 2 ^ 64 := by
        intro p hp
        have := (wf_pairs_mem hwfm p hp).1
        simpa [strWf] using this
      have hvals : ∀ p ∈ m, ∀ r,
          decode_valueF env fuel (encode_value p.2 ++ r) = .ok (p.2, r) := by
        intro p hp r
        have hle := mem_encode_pairs_length hp
        exact ih p.2 ((wf_pairs_mem hwfm p hp).2) (cf_pairs_mem hcf p hp) (by omega) r
      rw [show encode_value (.MAP m) = 6 :: (leBytes m.length 8 ++ encode_pairs m)
        from rfl, List.cons_append, List.append_assoc]
      simp [decode_valueF, dstep, dtry, dbyte, decode_int_leBytes m.length h64 _,
        usizeOfInt_i64OfBytes_leBytes m.length h64,
        decode_kv_pairs_encode_pairs (decode_valueF env fuel) m hkeys hvals rest]
    | SLICE s =>
      obtain ⟨st, sp⟩ := s
      simp only [CdcValue.wf, Bool.and_eq_true] at hwf
      obtain ⟨hst, hsp⟩ := hwf
      have hnone : 1 < fuel → ∀ r,
          decode_valueF env fuel ((0 : Nat) :: r) = .ok (.NONE, r) := by
        intro hf r
        have := ih .NONE (by simp [CdcValue.wf]) (by simp [CdcValue.callableFree])
          (by simp [encode_value]; omega) r
        simpa [encode_value] using this
      have hint : ∀ w : Int, i64Range w = true → 9 < fuel → ∀ r,
          decode_valueF env fuel ((2 : Nat) :: (encInt64 w ++ r)) = .ok (.INTEGER w, r) := by
        intro w hw hf r
        have := ih (.INTEGER w) (by simpa [CdcValue.wf] using hw)
          (by simp [CdcValue.callableFree])
          (by simp [encode_value, encInt64_length]; omega) r
        simpa [encode_value] using this
      cases st with
      | none =>
        cases sp with
        | none =>
          simp only [encode_value, List.length_cons, List.length_append] at hlen
          simp [encode_value, decode_valueF, dstep, dtry, dbyte, sliceSlot, hnone (by omega)]
        | some w =>
          simp only [optI64] at hsp
          simp only [encode_value, List.length_cons, List.length_append,
            encInt64_length] at hlen
          simp [encode_value, decode_valueF, dstep, dtry, dbyte, sliceSlot, hnone (by omega),
            hint w hsp (by omega)]
      | some v =>
        simp only [optI64] at hst
        cases sp with
        | none =>
          simp only [encode_value, List.length_cons, List.length_append,
            encInt64_length] at hlen
          simp [encode_value, decode_valueF, dstep, dtry, dbyte, sliceSlot, hnone (by omega),
            hint v hst (by omega)]
        | some w =>
          simp only [optI64] at hsp
          simp only [encode_value, List.length_cons, List.length_append,
            encInt64_length] at hlen
          simp [encode_value, decode_valueF, dstep, dtry, dbyte, sliceSlot, hint v hst (by omega),
            hint w hsp (by omega)]
    | ITEM it =>
      obtain ⟨iid, icat, istage⟩ := it
      simp only [CdcValue.wf, itemWf, strWf, i32Range, Bool.and_eq_true,
        decide_eq_true_eq] at hwf
      obtain ⟨⟨hid, hcat⟩, hstage⟩ := hwf
      have hcat64 : -(2 ^ 63) ≤ icat ∧ icat < 2 ^ 63 := by
        constructor <;> [exact le_trans (by norm_num) hcat.1;
          exact lt_trans hcat.2 (by norm_num)]
      have hstage64 : -(2 ^ 63) ≤ istage ∧ istage < 2 ^ 63 := by
        constructor <;> [exact le_trans (by norm_num) hstage.1;
          exact lt_trans hstage.2 (by norm_num)]
      simp [encode_value, decode_valueF, dstep, dtry, dbyte, decode_string_append iid hid,
        decode_int_encInt64 icat hcat64.1 hcat64.2,
        decode_int_encInt64 istage hstage64.1 hstage64.2,
        i32OfInt_of_range icat hcat.1 hcat.2,
        i32OfInt_of_range istage hstage.1 hstage.2]
    | INDEXABLE ix =>
      obtain ⟨⟨iid, icat, istage⟩, tok, size⟩ := ix
      simp only [CdcValue.wf, itemWf, strWf, i32Range, i64Range, Bool.and_eq_true,
        decide_eq_true_eq] at hwf
      obtain ⟨⟨⟨⟨hid, hcat⟩, hstage⟩, htok⟩, hsize⟩ := hwf
      simp only [encode_value, List.length_cons, List.length_append,
        encInt64_length, encode_string_length] at hlen
      have hitem := ih (.ITEM ⟨iid, icat, istage⟩)
        (by simp only [CdcValue.wf, itemWf, strWf, i32Range, Bool.and_eq_true,
          decide_eq_true_eq]
            omega)
        (by simp [CdcValue.callableFree])
        (by simp [encode_value, encInt64_length, encode_string_length]; omega)
      simp only [encode_value, List.cons_append, List.append_assoc] at hitem
      simp [encode_value, decode_valueF, dstep, dtry, dbyte, expectItemV, hitem, decode_string_append tok htok,
        decode_int_encInt64 size hsize.1 hsize.2]
    | COMMAND c =>
      obtain ⟨name⟩ := c
      simp only [CdcValue.wf, strWf, decide_eq_true_eq] at hwf
      simp [encode_value, decode_valueF, dstep, dtry, dbyte, decode_string_append name hwf]
    | CALLABLE h f => simp [CdcValue.callableFree] at hcf
    | ERROR e =>
      obtain ⟨eid, etext, eline⟩ := e
      simp only [CdcValue.wf, strWf, i64Range, Bool.and_eq_true,
        decide_eq_true_eq] at hwf
      obtain ⟨⟨hid, htext⟩, hline⟩ := hwf
      simp [encode_value, decode_valueF, dstep, dtry, dbyte, decode_string_append eid hid,
        decode_string_append etext htext,
        decode_int_encInt64 eline hline.1 hline.2]
    | TRAIT id args kwargs =>
      simp only [CdcValue.wf, strWf, Bool.and_eq_true, decide_eq_true_eq] at hwf
      obtain ⟨⟨⟨⟨⟨hid, hargs64⟩, hkw64⟩, hnd⟩, hwfa⟩, hwfk⟩ := hwf
      simp only [CdcValue.callableFree, Bool.and_eq_true] at hcf
      simp only [encode_value, List.length_cons, List.length_append,
        leBytes_length, encode_string_length] at hlen
      have hargsv := ih (.LIST args)
        (by simp only [CdcValue.wf, Bool.and_eq_true, decide_eq_true_eq]
            exact ⟨hargs64, hwfa⟩)
        (by simpa [CdcValue.callableFree] using hcf.1)
        (by simp [encode_value, leBytes_length]; omega)
      simp only [encode_value, List.cons_append, List.append_assoc] at hargsv
      have hkwv := ih (.MAP kwargs)
        (by simp only [CdcValue.wf, keysNodup, Bool.and_eq_true, decide_eq_true_eq]
            exact ⟨⟨hkw64, by simpa [keysNodup] using hnd⟩, hwfk⟩)
        (by simpa [CdcValue.callableFree] using hcf.2)
        (by simp [encode_value, leBytes_length]; omega)
      simp only [encode_value, List.cons_append, List.append_assoc] at hkwv
      simp [encode_value, decode_valueF, dstep, dtry, dbyte, expectListV, expectMapV, decode_string_append id hid, hargsv, hkwv]
    | OBJECT tid rep attrs =>
      simp only [CdcValue.wf, strWf, Bool.and_eq_true, decide_eq_true_eq] at hwf
      obtain ⟨⟨⟨⟨htid, hrep⟩, h64⟩, hnd⟩, hwfm⟩ := hwf
      simp only [CdcValue.callableFree] at hcf
      simp only [encode_value, List.length_cons, List.length_append,
        encInt64_length, encode_string_length] at hlen
      have hkeys : ∀ p ∈ attrs, (p.1).length < 2 ^ 64 := by
        intro p hp
        have := (wf_pairs_mem hwfm p hp).1
        simpa [strWf] using this
      have hvals : ∀ p ∈ attrs, ∀ r,
          decode_valueF env fuel (encode_value p.2 ++ r) = .ok (p.2, r) := by
        intro p hp r
        have hle := mem_encode_pairs_length hp
        exact ih p.2 ((wf_pairs_mem hwfm p hp).2) (cf_pairs_mem hcf p hp) (by omega) r
      simp [encode_value, decode_valueF, dstep, dtry, dbyte, decode_string_append tid htid,
        decode_string_append rep hrep, encInt64_ofNat attrs.length h64,
        decode_int_leBytes attrs.length h64 _,
        usizeOfInt_i64OfBytes_leBytes attrs.length h64,
        decode_kv_pairs_encode_pairs (decode_valueF env fuel) attrs hkeys hvals rest]
    | PACKAGE ref meta =>
      simp only [CdcValue.wf, strWf, Bool.and_eq_true, decide_eq_true_eq] at hwf
      obtain ⟨⟨⟨href, h64⟩, hnd⟩, hwfm⟩ := hwf
      simp only [CdcValue.callableFree] at hcf
      simp only [encode_value, List.length_cons, List.length_append,
        encInt64_length, encode_string_length] at hlen
      have hkeys : ∀ p ∈ meta, (p.1).length < 2 ^ 64 := by
        intro p hp
        have := (wf_pairs_mem hwfm p hp).1
        simpa [strWf] using this
      have hvals : ∀ p ∈ meta, ∀ r,
          decode_valueF env fuel (encode_value p.2 ++ r) = .ok (p.2, r) := by
        intro p hp r
        have hle := mem_encode_pairs_length hp
        exact ih p.2 ((wf_pairs_mem hwfm p hp).2) (cf_pairs_mem hcf p hp) (by omega) r
      simp [encode_value, decode_valueF, dstep, dtry, dbyte, decode_string_append ref href,
        encInt64_ofNat meta.length h64,
        decode_int_leBytes meta.length h64 _,
        usizeOfInt_i64OfBytes_leBytes meta.length h64,
        decode_kv_pairs_encode_pairs (decode_valueF env fuel) meta hkeys hvals rest]
    | VEC2D v =>
      obtain ⟨vx, vy⟩ := v
      simp only [CdcValue.wf, u64Range, Bool.and_eq_true, decide_eq_true_eq] at hwf
      have hx8 : (leBytes vx 8).length = 8 := leBytes_length _ _
      have hy8 : (leBytes vy 8).length = 8 := leBytes_length _ _
      have hd16 : ∀ r : List Nat, ((leBytes vx 8 ++ r)).drop 16 = r.drop 8 := by
        intro r
        simpa [hx8] using drop_append_add (leBytes vx 8) r 8
      simp [encode_value, decode_valueF, dstep, dtry, dbyte, hx8, hy8, take_append_len _ 8 hx8,
        drop_append_len _ 8 hx8, take_append_len _ 8 hy8, drop_append_len _ 8 hy8,
        hd16, leValue_leBytes8 vx hwf.1, leValue_leBytes8 vy hwf.2]
      omega
    | VEC3D v =>
      obtain ⟨vx, vy, vz⟩ := v
      simp only [CdcValue.wf, u64Range, Bool.and_eq_true, decide_eq_true_eq] at hwf
      obtain ⟨⟨hx, hy⟩, hz⟩ := hwf
      have hx8 : (leBytes vx 8).length = 8 := leBytes_length _ _
      have hy8 : (leBytes vy 8).length = 8 := leBytes_length _ _
      have hz8 : (leBytes vz 8).length = 8 := leBytes_length _ _
      have hd16 : ∀ r : List Nat, ((leBytes vx 8 ++ r)).drop 16 = r.drop 8 := by
        intro r
        simpa [hx8] using drop_append_add (leBytes vx 8) r 8
      have hd24 : ∀ r : List Nat, ((leBytes vx 8 ++ r)).drop 24 = r.drop 16 := by
        intro r
        simpa [hx8] using drop_append_add (leBytes vx 8) r 16
      have hd16y : ∀ r : List Nat, ((leBytes vy 8 ++ r)).drop 16 = r.drop 8 := by
        intro r
        simpa [hy8] using drop_append_add (leBytes vy 8) r 8
      simp [encode_value, decode_valueF, dstep, dtry, dbyte, hx8, hy8, hz8, take_append_len _ 8 hx8,
        drop_append_len _ 8 hx8, take_append_len _ 8 hy8, drop_append_len _ 8 hy8,
        take_append_len _ 8 hz8, drop_append_len _ 8 hz8, hd16, hd24, hd16y,
        leValue_leBytes8 vx hx, leValue_leBytes8 vy hy, leValue_leBytes8 vz hz]
      omega
    | BLOB data =>
      simp only [CdcValue.wf, decide_eq_true_eq] at hwf
      rw [show encode_value (.BLOB data) = 20 :: (leBytes data.length 8 ++ data)
        from rfl, List.cons_append, List.append_assoc]
      simp [decode_valueF, dstep, dtry, dbyte, decode_int_leBytes data.length hwf _,
        usizeOfInt_i64OfBytes_leBytes data.length hwf,
        take_append_len data _ rfl, drop_append_len data _ rfl]
    | ARRAY p it k idx sel tr =>
      rw [CdcValue.wf.eq_def] at hwf
      simp only [strWf, Bool.and_eq_true, decide_eq_true_eq] at hwf
      obtain ⟨⟨⟨⟨⟨hwfp, hwfit⟩, hk⟩, h64⟩, hidx⟩, hwftr⟩ := hwf
      rw [CdcValue.callableFree.eq_def] at hcf
      simp only [Bool.and_eq_true] at hcf
      obtain ⟨⟨hcfp, hcfit⟩, hcftr⟩ := hcf
      have hidxall : ∀ i ∈ idx, i64Range i = true := by
        rw [List.all_eq_true] at hidx
        exact hidx
      cases tr with
      | none =>
        have henc : encode_value (.ARRAY p it k idx sel none) =
            15 :: (encode_value p ++ encode_value it ++ encode_string k ++
              encInt64 (idx.length : Int) ++ encInts idx ++
              (if sel then 1 else 0) :: [0]) := by
          rw [encode_value.eq_def]
        rw [henc] at hlen
        simp only [List.length_cons, List.length_append,
          encInt64_length, encode_string_length] at hlen
        have hpv : ∀ r, decode_valueF env fuel (encode_value p ++ r) = .ok (p, r) :=
          fun r => ih p hwfp hcfp (by omega) r
        have hitv : ∀ r, decode_valueF env fuel (encode_value it ++ r) = .ok (it, r) :=
          fun r => ih it hwfit hcfit (by omega) r
        rw [henc]
        simp [decode_valueF, dstep, dtry, dbyte, decode_array_trans, hpv, hitv,
          decode_string_append k hk,
          encInt64_ofNat idx.length h64, decode_int_leBytes idx.length h64 _,
          usizeOfInt_i64OfBytes_leBytes idx.length h64,
          decode_ints_encInts idx hidxall, ifNat_bne sel]
      | some t =>
        simp only [] at hwftr hcftr
        have henc : encode_value (.ARRAY p it k idx sel (some t)) =
            15 :: (encode_value p ++ encode_value it ++ encode_string k ++
              encInt64 (idx.length : Int) ++ encInts idx ++
              (if sel then 1 else 0) :: 1 :: encode_value t) := by
          rw [encode_value.eq_def]
        rw [henc] at hlen
        simp only [List.length_cons, List.length_append,
          encInt64_length, encode_string_length] at hlen
        have hpv : ∀ r, decode_valueF env fuel (encode_value p ++ r) = .ok (p, r) :=
          fun r => ih p hwfp hcfp (by omega) r
        have hitv : ∀ r, decode_valueF env fuel (encode_value it ++ r) = .ok (it, r) :=
          fun r => ih it hwfit hcfit (by omega) r
        have ht : ∀ r, decode_valueF env fuel (encode_value t ++ r) = .ok (t, r) :=
          fun r => ih t hwftr hcftr (by omega) r
        rw [henc]
        simp [decode_valueF, dstep, dtry, dbyte, decode_array_trans, hpv, hitv, ht,
          decode_string_append k hk,
          encInt64_ofNat idx.length h64, decode_int_leBytes idx.length h64 _,
          usizeOfInt_i64OfBytes_leBytes idx.length h64,
          decode_ints_encInts idx hidxall, ifNat_bne sel]

/-- decode_value_encode: the wrapper-level round trip.  Decoding the bytes
encode_value produces for a well-formed callable-free value, with any
suffix appended, returns exactly that value and leaves exactly the suffix. -/
theorem decode_value_encode (env : Registry) (v : CdcValue)
    (hwf : CdcValue.wf v = true) (hcf : CdcValue.callableFree v = true)
    (rest : List Nat) :
    decode_value env (encode_value v ++ rest) = .ok (v, rest) := by
  rw [decode_value]
  refine decode_encode_valueF env _ v hwf hcf ?_ rest
  rw [List.length_append]
  omega

/-! ## Incrementality: the decoder reads only the bytes it consumes

Appending extra bytes to a buffer cannot change an outcome other than
missing-data: a successful decode returns the same value with the extra
bytes appended to the remainder, and an unknown-type or missing-function
failure stays the same failure. -/

/-- extendRes is the expected outcome on a buffer extended by s. -/
def extendRes {γ : Type} (x : Except DecodeError (γ × List Nat)) (s : List Nat) :
    Except DecodeError (γ × List Nat) :=
  match x with
  | .ok (v, r) => .ok (v, r ++ s)
  | .error e => .error e

/-- IncrOn f: on every buffer, f either fails with missing-data or treats
an extended buffer as the original with the extension appended to the
remainder. -/
def IncrOn {γ : Type} (f : List Nat → Except DecodeError (γ × List Nat)) : Prop :=
  ∀ b s, f b = .error .MissingData ∨ f (b ++ s) = extendRes (f b) s

theorem extendRes_error {γ : Type} (e : DecodeError) (s : List Nat) :
    extendRes (γ := γ) (.error e) s = .error e := rfl

theorem extendRes_ok {γ : Type} (v : γ) (r s : List Nat) :
    extendRes (.ok (v, r)) s = .ok (v, r ++ s) := rfl

theorem decode_int_error {b : List Nat} {e : DecodeError}
    (h : decode_int b = .error e) : e = .MissingData := by
  rw [decode_int] at h
  split at h
  · cases h
    rfl
  · cases h

theorem decode_string_error {b : List Nat} {e : DecodeError}
    (h : decode_string b = .error e) : e = .MissingData := by
  rw [decode_string] at h
  cases hint : decode_int b with
  | error e2 =>
    rw [hint] at h
    cases h
    exact decode_int_error hint
  | ok p =>
    obtain ⟨len, r⟩ := p
    rw [hint] at h
    simp only [] at h
    split at h
    · cases h
      rfl
    · cases h

theorem incrOn_decode_int : IncrOn decode_int := by
  intro b s
  by_cases h : b.length < 8
  · left
    rw [decode_int, if_pos h]
  · right
    have hb : decode_int b = .ok (i64OfBytes (b.take 8), b.drop 8) := by
      rw [decode_int, if_neg h]
    rw [hb, extendRes_ok, decode_int,
      if_neg (by rw [List.length_append]; omega),
      List.take_append_of_le_length (by omega),
      List.drop_append_of_le_length (by omega)]

theorem incrOn_decode_string : IncrOn decode_string := by
  intro b s
  cases hint : decode_int b with
  | error e =>
    left
    rw [decode_string, hint, decode_int_error hint]
  | ok p =>
    obtain ⟨len, r⟩ := p
    rcases incrOn_decode_int b s with h | h
    · rw [hint] at h
      cases h
    · rw [hint, extendRes_ok] at h
      by_cases hlt : r.length < usizeOfInt len
      · left
        rw [decode_string, hint]
        simp only [if_pos hlt]
      · right
        have hb : decode_string b = .ok (r.take (usizeOfInt len), r.drop (usizeOfInt len)) := by
          rw [decode_string, hint]
          simp only [if_neg hlt]
        rw [hb, extendRes_ok, decode_string, h]
        simp only [if_neg (show ¬(r ++ s).length < usizeOfInt len by
          rw [List.length_append]; omega)]
        rw [List.take_append_of_le_length (by omega),
          List.drop_append_of_le_length (by omega)]

theorem decode_ints_error : ∀ {n : Nat} {b : List Nat} {e : DecodeError},
    decode_ints n b = .error e → e = .MissingData := by
  intro n
  induction n with
  | zero =>
    intro b e h
    rw [decode_ints] at h
    cases h
  | succ n ih =>
    intro b e h
    rw [decode_ints] at h
    cases hint : decode_int b with
    | error e2 =>
      rw [hint] at h
      cases h
      exact decode_int_error hint
    | ok p =>
      obtain ⟨i, r⟩ := p
      rw [hint] at h
      simp only [] at h
      cases hrec : decode_ints n r with
      | error e3 =>
        rw [hrec] at h
        simp only [] at h
        cases h
        exact ih hrec
      | ok q =>
        obtain ⟨is, r2⟩ := q
        rw [hrec] at h
        simp only [] at h
        cases h

theorem incrOn_decode_ints (n : Nat) : IncrOn (decode_ints n) := by
  induction n with
  | zero =>
    intro b s
    right
    rw [decode_ints, decode_ints, extendRes_ok]
  | succ n ih =>
    intro b s
    cases hint : decode_int b with
    | error e =>
      left
      have hm := decode_int_error hint
      subst hm
      simp only [decode_ints, hint]
    | ok p =>
      obtain ⟨i, r⟩ := p
      rcases incrOn_decode_int b s with h | h
      · rw [hint] at h
        cases h
      · rw [hint, extendRes_ok] at h
        rcases ih r s with h2 | h2
        · left
          simp only [decode_ints, hint, h2]
        · cases hrec : decode_ints n r with
          | error e =>
            left
            have hm := decode_ints_error hrec
            subst hm
            simp only [decode_ints, hint, hrec]
          | ok q =>
            obtain ⟨is, r2⟩ := q
            right
            rw [hrec, extendRes_ok] at h2
            simp only [decode_ints, hint, hrec, h, h2, extendRes_ok]

theorem incrOn_decode_values
    (dec : List Nat → Except DecodeError (CdcValue × List Nat))
    (hdec : IncrOn dec) (n : Nat) : IncrOn (decode_values dec n) := by
  induction n with
  | zero =>
    intro b s
    right
    rw [decode_values, decode_values, extendRes_ok]
  | succ n ih =>
    intro b s
    rcases hdec b s with h | h
    · left
      simp only [decode_values, h]
    · cases hv : dec b with
      | error e =>
        right
        rw [hv, extendRes_error] at h
        simp only [decode_values, hv, h, extendRes_error]
      | ok p =>
        obtain ⟨v, r⟩ := p
        rw [hv, extendRes_ok] at h
        rcases ih r s with h2 | h2
        · left
          simp only [decode_values, hv, h2]
        · cases hrec : decode_values dec n r with
          | error e =>
            right
            rw [hrec, extendRes_error] at h2
            simp only [decode_values, hv, hrec, h, h2, extendRes_error]
          | ok q =>
            obtain ⟨vs, r2⟩ := q
            right
            rw [hrec, extendRes_ok] at h2
            simp only [decode_values, hv, hrec, h, h2, extendRes_ok]

theorem incrOn_decode_kv_pairs
    (dec : List Nat → Except DecodeError (CdcValue × List Nat))
    (hdec : IncrOn dec) (n : Nat) : IncrOn (decode_kv_pairs dec n) := by
  induction n with
  | zero =>
    intro b s
    right
    rw [decode_kv_pairs, decode_kv_pairs, extendRes_ok]
  | succ n ih =>
    intro b s
    cases hk : decode_string b with
    | error e =>
      left
      have hm := decode_string_error hk
      subst hm
      simp only [decode_kv_pairs, hk]
    | ok p =>
      obtain ⟨k, r⟩ := p
      rcases incrOn_decode_string b s with h | h
      · rw [hk] at h
        cases h
      · rw [hk, extendRes_ok] at h
        rcases hdec r s with h2 | h2
        · left
          simp only [decode_kv_pairs, hk, h2]
        · cases hv : dec r with
          | error e =>
            right
            rw [hv, extendRes_error] at h2
            simp only [decode_kv_pairs, hk, hv, h, h2, extendRes_error]
          | ok q =>
            obtain ⟨v, r2⟩ := q
            rw [hv, extendRes_ok] at h2
            rcases ih r2 s with h3 | h3
            · left
              simp only [decode_kv_pairs, hk, hv, h3]
            · cases hrec : decode_kv_pairs dec n r2 with
              | error e =>
                right
                rw [hrec, extendRes_error] at h3
                simp only [decode_kv_pairs, hk, hv, hrec, h, h2, h3, extendRes_error]
              | ok q2 =>
                obtain ⟨ps, r3⟩ := q2
                right
                rw [hrec, extendRes_ok] at h3
                simp only [decode_kv_pairs, hk, hv, hrec, h, h2, h3, extendRes_ok]

theorem incrOn_decode_array_trans
    (dec : List Nat → Except DecodeError (CdcValue × List Nat))
    (hdec : IncrOn dec) : IncrOn (decode_array_trans dec) := by
  intro b s
  cases b with
  | nil => left; rfl
  | cons flag rest =>
    by_cases hf : (flag != 0) = true
    · rcases hdec rest s with h | h
      · left
        simp only [decode_array_trans, if_pos hf, h]
      · cases hv : dec rest with
        | error e =>
          right
          rw [hv, extendRes_error] at h
          simp only [List.cons_append, decode_array_trans, if_pos hf, hv, h,
            extendRes_error]
        | ok p =>
          obtain ⟨t, r⟩ := p
          right
          rw [hv, extendRes_ok] at h
          simp only [List.cons_append, decode_array_trans, if_pos hf, hv, h,
            extendRes_ok]
    · right
      simp only [List.cons_append, decode_array_trans, if_neg hf, extendRes_ok]

theorem IncrOn.dstepOn {g1 g2 : Type} {f : List Nat → Except DecodeError (g1 × List Nat)}
    (hf : IncrOn f) (g : g1 → List Nat → Except DecodeError (g2 × List Nat))
    (hg : ∀ v, IncrOn (g v)) :
    IncrOn (fun b => dstep (f b) g) := by
  intro b s
  rcases hf b s with h | h
  · left
    simp only [dstep, h]
  · cases hfv : f b with
    | error e =>
      right
      rw [hfv, extendRes_error] at h
      simp only [dstep, hfv, h, extendRes_error]
    | ok p =>
      obtain ⟨v, r⟩ := p
      rw [hfv, extendRes_ok] at h
      rcases hg v r s with h2 | h2
      · left
        simp only [dstep, hfv, h2]
      · right
        simp only [dstep, hfv, h, h2]

theorem IncrOn.pure {g1 : Type} (v : g1) : IncrOn (fun b => .ok (v, b)) := by
  intro b s
  right
  rw [extendRes_ok]

theorem IncrOn.err {g1 : Type} (e : DecodeError) :
    IncrOn (fun _ => (.error e : Except DecodeError (g1 × List Nat))) := by
  intro b s
  right
  rw [extendRes_error]

theorem IncrOn.dbyteOn {g1 : Type}
    (g : Nat → List Nat → Except DecodeError (g1 × List Nat))
    (hg : ∀ x, IncrOn (g x)) :
    IncrOn (dbyte g) := by
  intro b s
  cases b with
  | nil => left; rfl
  | cons x r =>
    rcases hg x r s with h | h
    · left
      exact h
    · right
      rw [List.cons_append]
      exact h

theorem IncrOn.readWindow {g1 : Type} (n : Nat) (g : List Nat → g1)
    (hdep : ∀ b s, n ≤ b.length → g (b ++ s) = g b) :
    IncrOn (fun b =>
      if b.length < n then .error .MissingData
      else .ok (g b, b.drop n)) := by
  intro b s
  by_cases h : b.length < n
  · left
    dsimp only
    rw [if_pos h]
  · right
    dsimp only
    rw [if_neg h, if_neg (by rw [List.length_append]; omega), extendRes_ok,
      hdep b s (by omega), List.drop_append_of_le_length (by omega)]

/-- incrOn_decode_valueF: appending bytes to the input of the decoder at
any fuel cannot change a non-missing-data outcome; a success sees the
appended bytes land verbatim in the remainder. -/
theorem incrOn_decode_valueF (env : Registry) :
    ∀ fuel, IncrOn (decode_valueF env fuel) := by
  intro fuel
  induction fuel with
  | zero =>
    intro b s
    left
    rfl
  | succ fuel ih =>
    intro b s
    cases b with
    | nil => left; rfl
    | cons t b =>
      rw [List.cons_append]
      by_cases h0 : t = 0
      · subst h0
        right
        simp [decode_valueF, extendRes_ok]
      by_cases h1 : t = 1
      · subst h1
        have hA := IncrOn.dbyteOn
          (fun x b2 => (.ok (.BOOL (x != 0), b2) : Except DecodeError (CdcValue × List Nat)))
          (fun x => IncrOn.pure (CdcValue.BOOL (x != 0)))
        rcases hA b s with h | h
        · left
          simpa [decode_valueF] using h
        · right
          simpa [decode_valueF] using h
      by_cases h2 : t = 2
      · subst h2
        have hA := IncrOn.dstepOn incrOn_decode_int _
          (fun i => IncrOn.pure (CdcValue.INTEGER i))
        rcases hA b s with h | h
        · left
          simpa [decode_valueF] using h
        · right
          simpa [decode_valueF] using h
      by_cases h3 : t = 3
      · subst h3
        have hA := IncrOn.readWindow 8 (fun bb => CdcValue.FLOAT (leValue (bb.take 8)))
          (fun bb ss hle => by
            dsimp only
            rw [List.take_append_of_le_length hle])
        rcases hA b s with h | h
        · left
          simpa [decode_valueF] using h
        · right
          simpa [decode_valueF] using h
      by_cases h4 : t = 4
      · subst h4
        have hA := IncrOn.dstepOn incrOn_decode_string _
          (fun str => IncrOn.pure (CdcValue.STRING str))
        rcases hA b s with h | h
        · left
          simpa [decode_valueF] using h
        · right
          simpa [decode_valueF] using h
      by_cases h5 : t = 5
      · subst h5
        have hA := IncrOn.dstepOn incrOn_decode_int (fun len r =>
            dstep (decode_values (decode_valueF env fuel) (usizeOfInt len) r)
              (fun vs r2 => .ok (.LIST vs, r2)))
          (fun len => IncrOn.dstepOn (incrOn_decode_values _ ih (usizeOfInt len)) _
            (fun vs => IncrOn.pure (CdcValue.LIST vs)))
        rcases hA b s with h | h
        · left
          simpa [decode_valueF] using h
        · right
          simpa [decode_valueF] using h
      by_cases h6 : t = 6
      · subst h6
        have hA := IncrOn.dstepOn incrOn_decode_int (fun len r =>
            dstep (decode_kv_pairs (decode_valueF env fuel) (usizeOfInt len) r)
              (fun ps r2 => .ok (.MAP ps, r2)))
          (fun len => IncrOn.dstepOn (incrOn_decode_kv_pairs _ ih (usizeOfInt len)) _
            (fun ps => IncrOn.pure (CdcValue.MAP ps)))
        rcases hA b s with h | h
        · left
          simpa [decode_valueF] using h
        · right
          simpa [decode_valueF] using h
      by_cases h7 : t = 7
      · subst h7
        have hA := IncrOn.dstepOn ih (fun start r1 =>
            dstep (decode_valueF env fuel r1) (fun stop r2 =>
              dtry (sliceSlot start) (fun so =>
                dtry (sliceSlot stop) (fun tp =>
                  Except.ok (CdcValue.SLICE ⟨so, tp⟩, r2)))))
          (fun start => IncrOn.dstepOn ih _ (fun stop => by
            cases hso : sliceSlot start with
            | error e =>
              simp only [dtry, hso]
              exact IncrOn.err e
            | ok so =>
              cases hsp : sliceSlot stop with
              | error e =>
                simp only [dtry, hso, hsp]
                exact IncrOn.err e
              | ok tp =>
                simp only [dtry, hso, hsp]
                exact IncrOn.pure _))
        rcases hA b s with h | h
        · left
          simpa [decode_valueF] using h
        · right
          simpa [decode_valueF] using h
      by_cases h9 : t = 9
      · subst h9
        have hA := IncrOn.dstepOn ih (fun itemv r1 =>
            dstep (decode_string r1) (fun token r2 =>
              dstep (decode_int r2) (fun size r3 =>
                dtry (expectItemV itemv) (fun it =>
                  Except.ok (CdcValue.INDEXABLE ⟨it, token, size⟩, r3)))))
          (fun itemv => IncrOn.dstepOn incrOn_decode_string _ (fun token =>
            IncrOn.dstepOn incrOn_decode_int _ (fun size => by
              cases hit : expectItemV itemv with
              | error e =>
                simp only [dtry, hit]
                exact IncrOn.err e
              | ok it =>
                simp only [dtry, hit]
                exact IncrOn.pure _)))
        rcases hA b s with h | h
        · left
          simpa [decode_valueF] using h
        · right
          simpa [decode_valueF] using h
      by_cases h18 : t = 18
      · subst h18
        have hA := IncrOn.readWindow 24 (fun bb =>
            CdcValue.VEC3D ⟨leValue (bb.take 8), leValue ((bb.drop 8).take 8),
              leValue ((bb.drop 16).take 8)⟩)
          (fun bb ss hle => by
            dsimp only
            have d1 : (bb ++ ss).take 8 = bb.take 8 :=
              List.take_append_of_le_length (by omega)
            have d2 : (bb ++ ss).drop 8 = bb.drop 8 ++ ss :=
              List.drop_append_of_le_length (by omega)
            have d3 : (bb ++ ss).drop 16 = bb.drop 16 ++ ss :=
              List.drop_append_of_le_length (by omega)
            have d4 : (bb.drop 8 ++ ss).take 8 = (bb.drop 8).take 8 :=
              List.take_append_of_le_length (by rw [List.length_drop]; omega)
            have d5 : (bb.drop 16 ++ ss).take 8 = (bb.drop 16).take 8 :=
              List.take_append_of_le_length (by rw [List.length_drop]; omega)
            rw [d1, d2, d3, d4, d5])
        rcases hA b s with h | h
        · left
          simpa [decode_valueF] using h
        · right
          simpa [decode_valueF] using h
      by_cases h17 : t = 17
      · subst h17
        have hA := IncrOn.readWindow 16 (fun bb =>
            CdcValue.VEC2D ⟨leValue (bb.take 8), leValue ((bb.drop 8).take 8)⟩)
          (fun bb ss hle => by
            dsimp only
            have d1 : (bb ++ ss).take 8 = bb.take 8 :=
              List.take_append_of_le_length (by omega)
            have d2 : (bb ++ ss).drop 8 = bb.drop 8 ++ ss :=
              List.drop_append_of_le_length (by omega)
            have d4 : (bb.drop 8 ++ ss).take 8 = (bb.drop 8).take 8 :=
              List.take_append_of_le_length (by rw [List.length_drop]; omega)
            rw [d1, d2, d4])
        rcases hA b s with h | h
        · left
          simpa [decode_valueF] using h
        · right
          simpa [decode_valueF] using h
      by_cases h10 : t = 10
      · subst h10
        have hA := IncrOn.dstepOn incrOn_decode_string _
          (fun name => IncrOn.pure (CdcValue.COMMAND ⟨name⟩))
        rcases hA b s with h | h
        · left
          simpa [decode_valueF] using h
        · right
          simpa [decode_valueF] using h
      by_cases h20 : t = 20
      · subst h20
        have hA := IncrOn.dstepOn incrOn_decode_int (fun len r =>
            if r.length < usizeOfInt len then .error .MissingData
            else .ok (.BLOB (r.take (usizeOfInt len)), r.drop (usizeOfInt len)))
          (fun len => IncrOn.readWindow (usizeOfInt len)
            (fun r => CdcValue.BLOB (r.take (usizeOfInt len)))
            (fun r ss hle => by
              dsimp only
              rw [List.take_append_of_le_length hle]))
        rcases hA b s with h | h
        · left
          simpa [decode_valueF] using h
        · right
          simpa [decode_valueF] using h
      by_cases h11 : t = 11
      · subst h11
        have hA := IncrOn.dstepOn incrOn_decode_string (fun ptr r1 =>
            dtry (parseHandle ptr) (fun p =>
              dtry (lookupCallable env p) (fun f =>
                Except.ok (CdcValue.CALLABLE p f, r1))))
          (fun ptr => by
            cases hp : parseHandle ptr with
            | error e =>
              simp only [dtry, hp]
              exact IncrOn.err e
            | ok p =>
              cases hl : lookupCallable env p with
              | error e =>
                simp only [dtry, hp, hl]
                exact IncrOn.err e
              | ok f =>
                simp only [dtry, hp, hl]
                exact IncrOn.pure _)
        rcases hA b s with h | h
        · left
          simpa [decode_valueF] using h
        · right
          simpa [decode_valueF] using h
      by_cases h12 : t = 12
      · subst h12
        have hA := IncrOn.dstepOn incrOn_decode_string (fun id r1 =>
            dstep (decode_string r1) (fun text r2 =>
              dstep (decode_int r2) (fun line r3 =>
                Except.ok (CdcValue.ERROR ⟨id, text, line⟩, r3))))
          (fun id => IncrOn.dstepOn incrOn_decode_string _ (fun text =>
            IncrOn.dstepOn incrOn_decode_int _ (fun line =>
              IncrOn.pure (CdcValue.ERROR ⟨id, text, line⟩))))
        rcases hA b s with h | h
        · left
          simpa [decode_valueF] using h
        · right
          simpa [decode_valueF] using h
      by_cases h13 : t = 13
      · subst h13
        have hA := IncrOn.dstepOn incrOn_decode_string (fun id r1 =>
            dstep (decode_valueF env fuel r1) (fun argsv r2 =>
              dstep (decode_valueF env fuel r2) (fun kwargsv r3 =>
                dtry (expectListV argsv) (fun args =>
                  dtry (expectMapV kwargsv) (fun kwargs =>
                    Except.ok (CdcValue.TRAIT id args kwargs, r3))))))
          (fun id => IncrOn.dstepOn ih _ (fun argsv =>
            IncrOn.dstepOn ih _ (fun kwargsv => by
              cases hargs : expectListV argsv with
              | error e =>
                simp only [dtry, hargs]
                exact IncrOn.err e
              | ok args =>
                cases hkw : expectMapV kwargsv with
                | error e =>
                  simp only [dtry, hargs, hkw]
                  exact IncrOn.err e
                | ok kwargs =>
                  simp only [dtry, hargs, hkw]
                  exact IncrOn.pure _)))
        rcases hA b s with h | h
        · left
          simpa [decode_valueF] using h
        · right
          simpa [decode_valueF] using h
      by_cases h8 : t = 8
      · subst h8
        have hA := IncrOn.dstepOn incrOn_decode_string (fun id r1 =>
            dstep (decode_int r1) (fun category r2 =>
              dstep (decode_int r2) (fun stage r3 =>
                Except.ok (CdcValue.ITEM ⟨id, i32OfInt category, i32OfInt stage⟩, r3))))
          (fun id => IncrOn.dstepOn incrOn_decode_int _ (fun category =>
            IncrOn.dstepOn incrOn_decode_int _ (fun stage =>
              IncrOn.pure (CdcValue.ITEM ⟨id, i32OfInt category, i32OfInt stage⟩))))
        rcases hA b s with h | h
        · left
          simpa [decode_valueF] using h
        · right
          simpa [decode_valueF] using h
      by_cases h19 : t = 19
      · subst h19
        right
        simp [decode_valueF, extendRes_ok]
      by_cases h14 : t = 14
      · subst h14
        have hA := IncrOn.dstepOn incrOn_decode_string (fun tid r1 =>
            dstep (decode_string r1) (fun rep r2 =>
              dstep (decode_int r2) (fun cnt r3 =>
                dstep (decode_kv_pairs (decode_valueF env fuel) (usizeOfInt cnt) r3)
                  (fun attrs r4 => Except.ok (CdcValue.OBJECT tid rep attrs, r4)))))
          (fun tid => IncrOn.dstepOn incrOn_decode_string _ (fun rep =>
            IncrOn.dstepOn incrOn_decode_int _ (fun cnt =>
              IncrOn.dstepOn (incrOn_decode_kv_pairs _ ih (usizeOfInt cnt)) _
                (fun attrs => IncrOn.pure (CdcValue.OBJECT tid rep attrs)))))
        rcases hA b s with h | h
        · left
          simpa [decode_valueF] using h
        · right
          simpa [decode_valueF] using h
      by_cases h15 : t = 15
      · subst h15
        have hA := IncrOn.dstepOn ih (fun project r1 =>
            dstep (decode_valueF env fuel r1) (fun item r2 =>
              dstep (decode_string r2) (fun key r3 =>
                dstep (decode_int r3) (fun ilen r4 =>
                  dstep (decode_ints (usizeOfInt ilen) r4) (fun idx r5 =>
                    dbyte (fun selb r6 =>
                      dstep (decode_array_trans (decode_valueF env fuel) r6)
                        (fun tr r7 =>
                          Except.ok (CdcValue.ARRAY project item key idx (selb != 0) tr,
                            r7))) r5)))))
          (fun project => IncrOn.dstepOn ih _ (fun item =>
            IncrOn.dstepOn incrOn_decode_string _ (fun key =>
              IncrOn.dstepOn incrOn_decode_int _ (fun ilen =>
                IncrOn.dstepOn (incrOn_decode_ints (usizeOfInt ilen)) _ (fun idx =>
                  IncrOn.dbyteOn _ (fun selb =>
                    IncrOn.dstepOn (incrOn_decode_array_trans _ ih) _
                      (fun tr => IncrOn.pure _)))))))
        rcases hA b s with h | h
        · left
          simpa [decode_valueF] using h
        · right
          simpa [decode_valueF] using h
      by_cases h16 : t = 16
      · subst h16
        have hA := IncrOn.dstepOn incrOn_decode_string (fun ref r1 =>
            dstep (decode_int r1) (fun cnt r2 =>
              dstep (decode_kv_pairs (decode_valueF env fuel) (usizeOfInt cnt) r2)
                (fun meta r3 => Except.ok (CdcValue.PACKAGE ref meta, r3))))
          (fun ref => IncrOn.dstepOn incrOn_decode_int _ (fun cnt =>
            IncrOn.dstepOn (incrOn_decode_kv_pairs _ ih (usizeOfInt cnt)) _
              (fun meta => IncrOn.pure (CdcValue.PACKAGE ref meta))))
        rcases hA b s with h | h
        · left
          simpa [decode_valueF] using h
        · right
          simpa [decode_valueF] using h
      right
      simp [decode_valueF, h0, h1, h2, h3, h4, h5, h6, h7, h9, h18, h17, h10, h20,
        h11, h12, h13, h8, h19, h14, h15, h16, extendRes_error]

/-! ## Fuel monotonicity: any outcome other than missing-data is stable
under increasing the fuel, so the wrapper fuel of decode_value settles
every such outcome. -/

/-- MonoTo f g: on every buffer, f either fails with missing-data or g
agrees with it. -/
def MonoTo {g1 : Type} (f g : List Nat → Except DecodeError (g1 × List Nat)) : Prop :=
  ∀ b, f b = .error .MissingData ∨ g b = f b

theorem MonoTo.refl {g1 : Type} (f : List Nat → Except DecodeError (g1 × List Nat)) :
    MonoTo f f := fun _ => Or.inr rfl

theorem MonoTo.dstepMono {g1 g2 : Type}
    {f f2 : List Nat → Except DecodeError (g1 × List Nat)}
    (hf : MonoTo f f2)
    (g g2 : g1 → List Nat → Except DecodeError (g2 × List Nat))
    (hg : ∀ v, MonoTo (g v) (g2 v)) :
    MonoTo (fun b => dstep (f b) g) (fun b => dstep (f2 b) g2) := by
  intro b
  rcases hf b with h | h
  · left
    simp only [dstep, h]
  · cases hfv : f b with
    | error e =>
      right
      rw [hfv] at h
      simp only [dstep, hfv, h]
    | ok p =>
      obtain ⟨v, r⟩ := p
      rw [hfv] at h
      rcases hg v r with h2 | h2
      · left
        simp only [dstep, hfv, h2]
      · right
        simp only [dstep, hfv, h, h2]

theorem MonoTo.dbyteMono {g1 : Type}
    (g g2 : Nat → List Nat → Except DecodeError (g1 × List Nat))
    (hg : ∀ x, MonoTo (g x) (g2 x)) :
    MonoTo (dbyte g) (dbyte g2) := by
  intro b
  cases b with
  | nil => left; rfl
  | cons x r => exact hg x r

theorem monoTo_decode_values
    {dec dec2 : List Nat → Except DecodeError (CdcValue × List Nat)}
    (hdec : MonoTo dec dec2) (n : Nat) :
    MonoTo (decode_values dec n) (decode_values dec2 n) := by
  induction n with
  | zero =>
    intro b
    right
    rfl
  | succ n ih =>
    intro b
    rcases hdec b with h | h
    · left
      simp only [decode_values, h]
    · cases hv : dec b with
      | error e =>
        right
        rw [hv] at h
        simp only [decode_values, hv, h]
      | ok p =>
        obtain ⟨v, r⟩ := p
        rw [hv] at h
        rcases ih r with h2 | h2
        · left
          simp only [decode_values, hv, h2]
        · right
          simp only [decode_values, hv, h, h2]

theorem monoTo_decode_kv_pairs
    {dec dec2 : List Nat → Except DecodeError (CdcValue × List Nat)}
    (hdec : MonoTo dec dec2) (n : Nat) :
    MonoTo (decode_kv_pairs dec n) (decode_kv_pairs dec2 n) := by
  induction n with
  | zero =>
    intro b
    right
    rfl
  | succ n ih =>
    intro b
    cases hk : decode_string b with
    | error e =>
      right
      simp only [decode_kv_pairs, hk]
    | ok p =>
      obtain ⟨k, r⟩ := p
      rcases hdec r with h | h
      · left
        simp only [decode_kv_pairs, hk, h]
      · cases hv : dec r with
        | error e =>
          right
          rw [hv] at h
          simp only [decode_kv_pairs, hk, hv, h]
        | ok q =>
          obtain ⟨v, r2⟩ := q
          rw [hv] at h
          rcases ih r2 with h2 | h2
          · left
            simp only [decode_kv_pairs, hk, hv, h2]
          · right
            simp only [decode_kv_pairs, hk, hv, h, h2]

theorem monoTo_decode_array_trans
    {dec dec2 : List Nat → Except DecodeError (CdcValue × List Nat)}
    (hdec : MonoTo dec dec2) :
    MonoTo (decode_array_trans dec) (decode_array_trans dec2) := by
  intro b
  cases b with
  | nil => left; rfl
  | cons flag rest =>
    by_cases hf : (flag != 0) = true
    · rcases hdec rest with h | h
      · left
        simp only [decode_array_trans, if_pos hf, h]
      · cases hv : dec rest with
        | error e =>
          right
          rw [hv] at h
          simp only [decode_array_trans, if_pos hf, hv, h]
        | ok p =>
          obtain ⟨t, r⟩ := p
          right
          rw [hv] at h
          simp only [decode_array_trans, if_pos hf, hv, h]
    · right
      simp only [decode_array_trans, if_neg hf]

/-- mono_decode_valueF: increasing the fuel can only turn a missing-data
outcome into something else; every other outcome is already settled. -/
theorem mono_decode_valueF (env : Registry) :
    ∀ fuel fuel2, fuel ≤ fuel2 →
      MonoTo (decode_valueF env fuel) (decode_valueF env fuel2) := by
  intro fuel
  induction fuel with
  | zero =>
    intro fuel2 _ b
    left
    rfl
  | succ fuel ih =>
    intro fuel2 hle b
    cases fuel2 with
    | zero => omega
    | succ fuel2 =>
      have ih2 : MonoTo (decode_valueF env fuel) (decode_valueF env fuel2) :=
        ih fuel2 (by omega)
      cases b with
      | nil => left; rfl
      | cons t b =>
        by_cases h0 : t = 0
        · subst h0; right; simp [decode_valueF]
        by_cases h1 : t = 1
        · subst h1; right; simp [decode_valueF]
        by_cases h2 : t = 2
        · subst h2; right; simp [decode_valueF]
        by_cases h3 : t = 3
        · subst h3; right; simp [decode_valueF]
        by_cases h4 : t = 4
        · subst h4; right; simp [decode_valueF]
        by_cases h5 : t = 5
        · subst h5
          have hA := MonoTo.dstepMono (MonoTo.refl decode_int) _ _
            (fun len => MonoTo.dstepMono (monoTo_decode_values ih2 (usizeOfInt len)) _ _
              (fun vs => MonoTo.refl (fun r2 => Except.ok (CdcValue.LIST vs, r2))))
          rcases hA b with h | h
          · left
            simpa [decode_valueF] using h
          · right
            simpa [decode_valueF] using h
        by_cases h6 : t = 6
        · subst h6
          have hA := MonoTo.dstepMono (MonoTo.refl decode_int) _ _
            (fun len => MonoTo.dstepMono (monoTo_decode_kv_pairs ih2 (usizeOfInt len)) _ _
              (fun ps => MonoTo.refl (fun r2 => Except.ok (CdcValue.MAP ps, r2))))
          rcases hA b with h | h
          · left
            simpa [decode_valueF] using h
          · right
            simpa [decode_valueF] using h
        by_cases h7 : t = 7
        · subst h7
          have hA := MonoTo.dstepMono ih2 _ _
            (fun start => MonoTo.dstepMono ih2 _ _
              (fun stop => MonoTo.refl (fun r2 =>
                dtry (sliceSlot start) (fun so =>
                  dtry (sliceSlot stop) (fun tp =>
                    Except.ok (CdcValue.SLICE ⟨so, tp⟩, r2))))))
          rcases hA b with h | h
          · left
            simpa [decode_valueF] using h
          · right
            simpa [decode_valueF] using h
        by_cases h9 : t = 9
        · subst h9
          have hA := MonoTo.dstepMono ih2 _ _
            (fun itemv => MonoTo.refl (fun r1 =>
              dstep (decode_string r1) (fun token r2 =>
                dstep (decode_int r2) (fun size r3 =>
                  dtry (expectItemV itemv) (fun it =>
                    Except.ok (CdcValue.INDEXABLE ⟨it, token, size⟩, r3))))))
          rcases hA b with h | h
          · left
            simpa [decode_valueF] using h
          · right
            simpa [decode_valueF] using h
        by_cases h18 : t = 18
        · subst h18; right; simp [decode_valueF]
        by_cases h17 : t = 17
        · subst h17; right; simp [decode_valueF]
        by_cases h10 : t = 10
        · subst h10; right; simp [decode_valueF]
        by_cases h20 : t = 20
        · subst h20; right; simp [decode_valueF]
        by_cases h11 : t = 11
        · subst h11; right; simp [decode_valueF]
        by_cases h12 : t = 12
        · subst h12; right; simp [decode_valueF]
        by_cases h13 : t = 13
        · subst h13
          have hA := MonoTo.dstepMono (MonoTo.refl decode_string) _ _
            (fun id => MonoTo.dstepMono ih2 _ _
              (fun argsv => MonoTo.dstepMono ih2 _ _
                (fun kwargsv => MonoTo.refl (fun r3 =>
                  dtry (expectListV argsv) (fun args =>
                    dtry (expectMapV kwargsv) (fun kwargs =>
                      Except.ok (CdcValue.TRAIT id args kwargs, r3)))))))
          rcases hA b with h | h
          · left
            simpa [decode_valueF] using h
          · right
            simpa [decode_valueF] using h
        by_cases h8 : t = 8
        · subst h8; right; simp [decode_valueF]
        by_cases h19 : t = 19
        · subst h19; right; simp [decode_valueF]
        by_cases h14 : t = 14
        · subst h14
          have hA := MonoTo.dstepMono (MonoTo.refl decode_string) _ _
            (fun tid => MonoTo.dstepMono (MonoTo.refl decode_string) _ _
              (fun rep => MonoTo.dstepMono (MonoTo.refl decode_int) _ _
                (fun cnt => MonoTo.dstepMono
                  (monoTo_decode_kv_pairs ih2 (usizeOfInt cnt)) _ _
                  (fun attrs => MonoTo.refl (fun r4 =>
                    Except.ok (CdcValue.OBJECT tid rep attrs, r4))))))
          rcases hA b with h | h
          · left
            simpa [decode_valueF] using h
          · right
            simpa [decode_valueF] using h
        by_cases h15 : t = 15
        · subst h15
          have hA := MonoTo.dstepMono ih2 _ _
            (fun project => MonoTo.dstepMono ih2 _ _
              (fun item => MonoTo.dstepMono (MonoTo.refl decode_string) _ _
                (fun key => MonoTo.dstepMono (MonoTo.refl decode_int) _ _
                  (fun ilen => MonoTo.dstepMono
                    (MonoTo.refl (decode_ints (usizeOfInt ilen))) _ _
                    (fun idx => MonoTo.dbyteMono _ _
                      (fun selb => MonoTo.dstepMono
                        (monoTo_decode_array_trans ih2) _ _
                        (fun tr => MonoTo.refl (fun r7 =>
                          Except.ok (CdcValue.ARRAY project item key idx
                            (selb != 0) tr, r7)))))))))
          rcases hA b with h | h
          · left
            simpa [decode_valueF] using h
          · right
            simpa [decode_valueF] using h
        by_cases h16 : t = 16
        · subst h16
          have hA := MonoTo.dstepMono (MonoTo.refl decode_string) _ _
            (fun ref => MonoTo.dstepMono (MonoTo.refl decode_int) _ _
              (fun cnt => MonoTo.dstepMono
                (monoTo_decode_kv_pairs ih2 (usizeOfInt cnt)) _ _
                (fun meta => MonoTo.refl (fun r3 =>
                  Except.ok (CdcValue.PACKAGE ref meta, r3)))))
          rcases hA b with h | h
          · left
            simpa [decode_valueF] using h
          · right
            simpa [decode_valueF] using h
        right
        simp [decode_valueF, h0, h1, h2, h3, h4, h5, h6, h7, h9, h18, h17, h10, h20,
          h11, h12, h13, h8, h19, h14, h15, h16]

/-- Strict prefix of a valid encoding: the decoder reports missing data. -/
theorem decode_prefix_missingData (env : Registry) (v : CdcValue)
    (hwf : CdcValue.wf v = true) (hcf : CdcValue.callableFree v = true)
    (p q : List Nat) (hpq : p ++ q = encode_value v) (hq : q ≠ []) :
    decode_value env p = .error .MissingData := by
  show decode_valueF env (p.length + 1) p = .error .MissingData
  rcases incrOn_decode_valueF env (p.length + 1) p q with h | h
  · exact h
  · have hlt : p.length + 1 ≤ (encode_value v).length + 1 := by
      have hL := congrArg List.length hpq
      simp only [List.length_append] at hL
      omega
    have hok : decode_valueF env ((encode_value v).length + 1) (p ++ q) = .ok (v, []) := by
      have hd := decode_encode_valueF env ((encode_value v).length + 1) v hwf hcf
        (by omega) []
      simpa [hpq] using hd
    rcases mono_decode_valueF env (p.length + 1) ((encode_value v).length + 1) hlt
      (p ++ q) with hm | hm
    · rw [h] at hm
      cases hres : decode_valueF env (p.length + 1) p with
      | ok pr =>
        obtain ⟨v', r⟩ := pr
        rw [hres, extendRes_ok] at hm
        cases hm
      | error e =>
        rw [hres, extendRes_error] at hm
        injection hm with he
        rw [he]
    · rw [hm, h] at hok
      cases hres : decode_valueF env (p.length + 1) p with
      | ok pr =>
        obtain ⟨v', r⟩ := pr
        rw [hres, extendRes_ok] at hok
        simp only [Except.ok.injEq, Prod.mk.injEq, List.append_eq_nil] at hok
        exact absurd hok.2.2 hq
      | error e =>
        rw [hres, extendRes_error] at hok
        cases hok

/-! ## The capacity reservation of the LIST / MAP arms

Vec::with_capacity(len) (and HashMap::with_capacity(len)) is called with
the as-usize cast of the decoded 8-byte length before any element is
decoded and before any bound on the remaining buffer is checked; the
functions below read off the argument those calls receive. -/

/-- list_with_capacity_arg: on a buffer whose tag byte is LIST, the
argument Vec::with_capacity receives (the decoded length as usize), if
decode_int succeeds. -/
def list_with_capacity_arg (b : List Nat) : Option Nat :=
  match b with
  | 5 :: r =>
    match decode_int r with
    | .ok (len, _) => some (usizeOfInt len)
    | .error _ => none
  | _ => none

/-- map_with_capacity_arg: the same for the MAP arm's
HashMap::with_capacity. -/
def map_with_capacity_arg (b : List Nat) : Option Nat :=
  match b with
  | 6 :: r =>
    match decode_int r with
    | .ok (len, _) => some (usizeOfInt len)
    | .error _ => none
  | _ => none

/-! ## network.rs: the reply-error taxonomy mapping -/

/-- ConnectionError mirrors network::ConnectionError. -/
inductive ConnectionError where
  | Attribute
  | Import
  | Index
  | Request
  | Break
  deriving DecidableEq

namespace connection
namespace error

/-- The taxonomy string constants of network::connection::error. -/
def ABORT : String := "Tom::GScript::BreakException"

def ATTRIBUTE : String := "Tom::GScript::AttributeException"

def IMPORT : String := "Tom::GScript::ImportException"

def INDEX : String := "Tom::GScript::IndexException"

end error
end connection

/-- ReplyError mirrors network::connection::reply::Error (value holds the
Bytes payload). -/
structure ReplyError where
  error_type : String
  description : String
  code : Int
  log : String
  value : List Nat

/-- ConnectionError.from_reply mirrors the
`impl From<connection::reply::Error> for ConnectionError` match on
err.error_type.as_str(). -/
def ConnectionError.from_reply (err : ReplyError) : ConnectionError :=
  if err.error_type = connection.error.ABORT then .Break
  else if err.error_type = connection.error.ATTRIBUTE then .Attribute
  else if err.error_type = connection.error.IMPORT then .Import
  else if err.error_type = connection.error.INDEX then .Index
  else .Request

/-! ## lib.rs: parse_connection_config

&str is modelled as List Char; str::split(c) is splitOnChar, and
api_url.find('?') followed by the slice [pos+1..] is queryAfter.
uuid::Uuid::new_v4().to_string() is a fresh random string and enters the
embedding as the freshUuid parameter. -/

/-- splitOnChar mirrors str::split on a one-char pattern: empty segments
included, the empty string splitting to one empty segment. -/
def splitOnChar (c : Char) : List Char → List (List Char)
  | [] => [[]]
  | x :: xs =>
    match splitOnChar c xs with
    | [] => [[]]
    | s :: ss => if x = c then [] :: s :: ss else (x :: s) :: ss

/-- queryAfter c s is the suffix after the first occurrence of c
(api_url.find('?') and the slice past it), none when c does not occur. -/
def queryAfter (c : Char) : List Char → Option (List Char)
  | [] => none
  | x :: xs => if x = c then some xs else queryAfter c xs

structure ConnectionConfig where
  server_url : List Char
  api_key : List Char
  interpreter_id : List Char
  strip_tracebacks : Bool
  deriving DecidableEq

/-- paramKV pair is the (key, value) pair the loop body sees: the first
two segments of pair.split('='), none when there is no '=' (the
if-let (Some(key), Some(value)) guard). -/
def paramKV (pair : List Char) : Option (List Char × List Char) :=
  match splitOnChar '=' pair with
  | key :: v :: _ => some (key, v)
  | _ => none

/-- applyParam is the body of the query-parameter loop of
parse_connection_config: match on the key, assign the matched field,
ignore unknown keys and pairs without '='. -/
def applyParam (cfg : ConnectionConfig) (pair : List Char) : ConnectionConfig :=
  match paramKV pair with
  | some (key, v) =>
    if key = "apikey".toList then
      ⟨cfg.server_url, v, cfg.interpreter_id, cfg.strip_tracebacks⟩
    else if key = "interpreter_id".toList then
      ⟨cfg.server_url, cfg.api_key, v, cfg.strip_tracebacks⟩
    else if key = "strip_tracebacks".toList then
      ⟨cfg.server_url, cfg.api_key, cfg.interpreter_id, decide (v = "1".toList)⟩
    else cfg
  | none => cfg

/-- parse_connection_config mirrors lib.rs parse_connection_config:
server_url is the whole api_url, api_key defaults to "", interpreter_id
defaults to the fresh UUID string, strip_tracebacks defaults to true, and
the query after '?' (if any), split on '&', is folded over the loop body.
The source returns Ok unconditionally. -/
def parse_connection_config (freshUuid api_url : List Char) : ConnectionConfig :=
  match queryAfter '?' api_url with
  | none => ⟨api_url, [], freshUuid, true⟩
  | some query => (splitOnChar '&' query).foldl applyParam ⟨api_url, [], freshUuid, true⟩

/-! ## lib.rs: Item::equals

The thread-local GOM_CONNECTION enters the embedding as an
Option-valued parameter: none when no connection has been initialized,
some req when one has, where req is the opaque
Conntection::request(request_code, params) call. -/

/-- ReqFun is the request side effect: a request code and the params map,
returning the server's reply value or a connection error. -/
abbrev ReqFun := Nat → List (List Nat × CdcValue) → Except ConnectionError CdcValue

/-- EQUAL is the wire code of network::Request::EQUAL. -/
def EQUAL : Nat := 10

/-- Item.to_map mirrors lib.rs Item::to_map: the id / category / stage
fields under their string keys (the source returns Ok unconditionally);
key bytes are the UTF-8 of "id", "category", "stage". -/
def Item.to_map (it : Item) : List (List Nat × CdcValue) :=
  [([105, 100], .STRING it.id),
   ([99, 97, 116, 101, 103, 111, 114, 121], .INTEGER it.category),
   ([115, 116, 97, 103, 101], .INTEGER it.stage)]

/-- Item.equals mirrors lib.rs Item::equals: the fast path returns
Ok(true) when category and id agree, before GOM_CONNECTION is touched;
otherwise the EQUAL request is issued with the two items under the keys
"item" and "other" (UTF-8 bytes below), a BOOL reply is returned, any
other reply is ConnectionError::Request, and a missing connection is
ConnectionError::Request. -/
def Item.equals (conn : Option ReqFun) (self other : Item) : Except ConnectionError Bool :=
  if self.category = other.category ∧ self.id = other.id then .ok true
  else
    match conn with
    | some req =>
      match req EQUAL [([105, 116, 101, 109], .MAP self.to_map),
                       ([111, 116, 104, 101, 114], .MAP other.to_map)] with
      | .ok (.BOOL result) => .ok result
      | .ok _ => .error .Request
      | .error e => .error e
    | none => .error .Request

/-! ## Helper lemmas about the lib.rs model -/

theorem splitOnChar_ne_nil (c : Char) (s : List Char) : splitOnChar c s ≠ [] := by
  induction s with
  | nil => simp [splitOnChar]
  | cons x xs ih =>
    cases h : splitOnChar c xs with
    | nil => exact absurd h ih
    | cons a l =>
      simp only [splitOnChar, h]
      split <;> simp

theorem splitOnChar_not_mem {c : Char} {s : List Char} (h : c ∉ s) :
    splitOnChar c s = [s] := by
  induction s with
  | nil => rfl
  | cons x xs ih =>
    have hx : x ≠ c := fun he => h (he ▸ List.mem_cons_self x xs)
    have hxs : c ∉ xs := fun hm => h (List.mem_cons_of_mem x hm)
    simp only [splitOnChar, ih hxs]
    rw [if_neg hx]

theorem splitOnChar_append_cons {c : Char} {s : List Char} (h : c ∉ s) (t : List Char) :
    splitOnChar c (s ++ c :: t) = s :: splitOnChar c t := by
  induction s with
  | nil =>
    cases ht : splitOnChar c t with
    | nil => exact absurd ht (splitOnChar_ne_nil c t)
    | cons a l =>
      simp [List.nil_append, splitOnChar, ht]
  | cons x xs ih =>
    have hx : x ≠ c := fun he => h (he ▸ List.mem_cons_self x xs)
    have hxs : c ∉ xs := fun hm => h (List.mem_cons_of_mem x hm)
    simp only [List.cons_append, splitOnChar, List.append_eq, ih hxs]
    rw [if_neg hx]

theorem queryAfter_not_mem {c : Char} {s : List Char} (h : c ∉ s) :
    queryAfter c s = none := by
  induction s with
  | nil => rfl
  | cons x xs ih =>
    have hx : x ≠ c := fun he => h (he ▸ List.mem_cons_self x xs)
    have hxs : c ∉ xs := fun hm => h (List.mem_cons_of_mem x hm)
    simp only [queryAfter, ih hxs]
    rw [if_neg hx]

theorem queryAfter_append {c : Char} {s : List Char} (h : c ∉ s) (t : List Char) :
    queryAfter c (s ++ c :: t) = some t := by
  induction s with
  | nil => simp [queryAfter]
  | cons x xs ih =>
    have hx : x ≠ c := fun he => h (he ▸ List.mem_cons_self x xs)
    have hxs : c ∉ xs := fun hm => h (List.mem_cons_of_mem x hm)
    simp only [List.cons_append, queryAfter, List.append_eq, ih hxs]
    rw [if_neg hx]

theorem foldl_applyParam_api_key :
    ∀ (ps : List (List Char)) (cfg : ConnectionConfig),
      (∀ p ∈ ps, ∀ kv, paramKV p = some kv → kv.1 ≠ "apikey".toList) →
      (ps.foldl applyParam cfg).api_key = cfg.api_key := by
  intro ps
  induction ps with
  | nil => intro cfg _; rfl
  | cons p ps ih =>
    intro cfg h
    rw [List.foldl_cons, ih _ (fun q hq => h q (List.mem_cons_of_mem p hq))]
    have hp := h p (List.mem_cons_self p ps)
    unfold applyParam
    cases hkv : paramKV p with
    | none => rfl
    | some kv =>
      obtain ⟨k, v⟩ := kv
      have hk : k ≠ "apikey".toList := hp (k, v) hkv
      simp only
      split_ifs with hA hB hC
      · exact absurd hA hk
      · rfl
      · rfl
      · rfl

theorem foldl_applyParam_interpreter_id :
    ∀ (ps : List (List Char)) (cfg : ConnectionConfig),
      (∀ p ∈ ps, ∀ kv, paramKV p = some kv → kv.1 ≠ "interpreter_id".toList) →
      (ps.foldl applyParam cfg).interpreter_id = cfg.interpreter_id := by
  intro ps
  induction ps with
  | nil => intro cfg _; rfl
  | cons p ps ih =>
    intro cfg h
    rw [List.foldl_cons, ih _ (fun q hq => h q (List.mem_cons_of_mem p hq))]
    have hp := h p (List.mem_cons_self p ps)
    unfold applyParam
    cases hkv : paramKV p with
    | none => rfl
    | some kv =>
      obtain ⟨k, v⟩ := kv
      have hk : k ≠ "interpreter_id".toList := hp (k, v) hkv
      simp only
      split_ifs <;> rfl

theorem foldl_applyParam_strip_tracebacks :
    ∀ (ps : List (List Char)) (cfg : ConnectionConfig),
      (∀ p ∈ ps, ∀ kv, paramKV p = some kv → kv.1 ≠ "strip_tracebacks".toList) →
      (ps.foldl applyParam cfg).strip_tracebacks = cfg.strip_tracebacks := by
  intro ps
  induction ps with
  | nil => intro cfg _; rfl
  | cons p ps ih =>
    intro cfg h
    rw [List.foldl_cons, ih _ (fun q hq => h q (List.mem_cons_of_mem p hq))]
    have hp := h p (List.mem_cons_self p ps)
    unfold applyParam
    cases hkv : paramKV p with
    | none => rfl
    | some kv =>
      obtain ⟨k, v⟩ := kv
      have hk : k ≠ "strip_tracebacks".toList := hp (k, v) hkv
      simp only
      split_ifs <;> rfl

/-- The decimal rendering of a u64 handle is a string short enough for
its own 8-byte length prefix. -/
theorem digits_ten_len_le (n : Nat) : (Nat.digits 10 n).length ≤ n := by
  induction n using Nat.strong_induction_on with
  | _ n ih =>
    rcases Nat.eq_zero_or_pos n with h0 | hp
    · subst h0; simp
    · rw [Nat.digits_def' (by norm_num : (1:Nat) < 10) hp]
      simp only [List.length_cons]
      have hlt : n / 10 < n := Nat.div_lt_self hp (by norm_num)
      have := ih (n / 10) hlt
      omega

theorem natToDecimal_length_lt (n : Nat) (hn : n < 2 ^ 64) :
    (natToDecimal n).length < 2 ^ 64 := by
  rw [natToDecimal]
  split
  · simp
  · rw [List.length_map, List.length_reverse]
    have := digits_ten_len_le n
    omega

/-! ## The claims -/

/-- C1 (amended): for every well-formed value v containing no Callable and
every n < |encode(v)|, decoding the truncated prefix encode(v)[0..n] fails
with the missing-data error.  The original claim's "for every value v" is
amended to exclude values containing a Callable: the decoder's CALLABLE
arm never reads the language-tag string that the encoder emits after the
handle string, so a truncation that cuts inside the language-tag string
does not produce missing-data (see the counterexample). -/
theorem claim_C1_truncated_decode (env : Registry) (v : CdcValue)
    (hwf : CdcValue.wf v = true) (hcf : CdcValue.callableFree v = true)
    (n : Nat) (hn : n < (encode_value v).length) :
    decode_value env ((encode_value v).take n) = .error .MissingData := by
  apply decode_prefix_missingData env v hwf hcf _ ((encode_value v).drop n)
    (List.take_append_drop n (encode_value v))
  intro hnil
  have hlen : ((encode_value v).drop n).length = (encode_value v).length - n :=
    List.length_drop n (encode_value v)
  rw [hnil] at hlen
  simp at hlen
  omega

/-- C1 (counterexample): the encoding of CALLABLE handle 7 is 31 bytes
(handle string then the 13-byte "rust function" language-tag string), yet
its 10-byte truncation — the tag and the handle string only — decodes
successfully in the encoding registry, not with missing-data, because the
decoder never reads the language-tag string. -/
theorem claim_C1_callable_truncation_decodes :
    (encode_value (.CALLABLE 7 3)).length = 31 ∧
    decode_value (registryInsert [] 7 3) ((encode_value (.CALLABLE 7 3)).take 10) =
      .ok (.CALLABLE 7 3, []) := by
  have hd : Nat.digits 10 7 = [7] := by
    rw [Nat.digits_def' (by norm_num : (1:Nat) < 10) (by norm_num : (0:Nat) < 7)]
    norm_num
  have h7 : natToDecimal 7 = [55] := by
    simp [natToDecimal, hd]
  have he : encode_value (.CALLABLE 7 3) =
      11 :: (encode_string [55] ++ encode_string rustFunctionStr) := by
    simp [encode_value, h7]
  rw [he]
  exact ⟨by decide, rfl⟩

/-- C1 (witness): the amended theorem at v = INTEGER 5, n = 4. -/
theorem claim_C1_witness :
    4 < (encode_value (.INTEGER 5)).length ∧
    decode_value [] ((encode_value (.INTEGER 5)).take 4) = .error .MissingData := by
  refine ⟨by decide, claim_C1_truncated_decode [] (.INTEGER 5) (by decide) (by decide) 4 (by decide)⟩

/-- C2 (refuting the capacity bound): on the 9-byte input 05 FF FF FF FF
FF FF FF FF the LIST arm calls Vec::with_capacity with 2^64 - 1 although
min(claimed_length, remaining_bytes) = 0: no bytes remain after the length
prefix.  The capacity bound of the claim is not in the code; the Rust call
aborts (capacity overflow) instead of returning a DecodeError. -/
theorem claim_C2_capacity_exceeds_remaining :
    list_with_capacity_arg [5, 255, 255, 255, 255, 255, 255, 255, 255] =
      some (2 ^ 64 - 1) ∧
    min (2 ^ 64 - 1) ([5, 255, 255, 255, 255, 255, 255, 255, 255].drop 9).length = 0 := by
  exact ⟨by decide, by decide⟩

/-- C3: for every well-formed value v that contains no Callable and whose
variant is not Map, decoding the bytes encode(v) yields v back and
consumes exactly the encoding, leaving an appended suffix as the
remainder.  (wf is the range invariant every Rust value has by typing; the
embedding orders map entries, so the theorem actually holds with nested
maps, as the claim states.) -/
theorem claim_C3_roundtrip (env : Registry) (v : CdcValue)
    (hwf : CdcValue.wf v = true) (hcf : CdcValue.callableFree v = true)
    (hnm : v.discriminant ≠ 6) (rest : List Nat) :
    decode_value env (encode_value v ++ rest) = .ok (v, rest) :=
  decode_value_encode env v hwf hcf rest

/-- C3 (witness): a LIST containing a nested MAP and a FLOAT, with a
2-byte suffix left over. -/
theorem claim_C3_witness :
    decode_value [] (encode_value
        (.LIST [.MAP [([107], .INTEGER 1)], .FLOAT 5]) ++ [9, 9]) =
      .ok (.LIST [.MAP [([107], .INTEGER 1)], .FLOAT 5], [9, 9]) :=
  claim_C3_roundtrip [] (.LIST [.MAP [([107], .INTEGER 1)], .FLOAT 5])
    (by decide) (by decide) (by decide) [9, 9]

/-- C4: encoding CALLABLE h f inserts handle h into the encoder's callable
registry; decoding its encoding against a registry holding that insertion
returns the identical function f, while decoding it against a registry
with no binding for h (for instance a fresh encoder's) fails with the
missing-function error. -/
theorem claim_C4_callable_registry (env : Registry) (h f : Nat) (hh : h < 2 ^ 64) :
    encode_registry env (.CALLABLE h f) = registryInsert env h f ∧
    (∀ rest, decode_value (registryInsert env h f)
        (encode_value (.CALLABLE h f) ++ rest) =
      .ok (.CALLABLE h f, encode_string rustFunctionStr ++ rest)) ∧
    (registryGet env h = none →
      ∀ rest, decode_value env (encode_value (.CALLABLE h f) ++ rest) =
        .error .MissingFunction) := by
  have hde : ∀ rest2 : List Nat,
      decode_string (encode_string (natToDecimal h) ++ rest2) =
        .ok (natToDecimal h, rest2) :=
    fun rest2 => decode_string_append (natToDecimal h) (natToDecimal_length_lt h hh) rest2
  refine ⟨rfl, ?_, ?_⟩
  · intro rest
    simp [decode_value, encode_value, decode_valueF, dstep, dtry, hde, parseHandle,
      parseU64_natToDecimal h hh, lookupCallable, registryGet_insert]
  · intro hnone rest
    simp [decode_value, encode_value, decode_valueF, dstep, dtry, hde, parseHandle,
      parseU64_natToDecimal h hh, lookupCallable, hnone]

/-- C4 (witness): handle 7, function 3, empty starting registry. -/
theorem claim_C4_witness :
    encode_registry [] (.CALLABLE 7 3) = registryInsert [] 7 3 ∧
    decode_value (registryInsert [] 7 3) (encode_value (.CALLABLE 7 3) ++ [9]) =
      .ok (.CALLABLE 7 3, encode_string rustFunctionStr ++ [9]) ∧
    decode_value [] (encode_value (.CALLABLE 7 3) ++ []) = .error .MissingFunction := by
  have H := claim_C4_callable_registry [] 7 3 (by norm_num)
  exact ⟨H.1, H.2.1 [9], H.2.2 rfl []⟩

/-- C5: in the ARRAY frame tail, the one-byte has-transformation flag must
be present (an empty buffer is missing-data) and is consumed in both
branches (the remainder continues past it); the nested transformation
value is decoded exactly when the byte is non-zero.  Symmetrically, the
encoder always emits the flag byte — 1 before a present transformation, 0
with nothing after it when absent. -/
theorem claim_C5_array_flag (dec : List Nat → Except DecodeError (CdcValue × List Nat)) :
    decode_array_trans dec [] = .error .MissingData ∧
    (∀ rest, decode_array_trans dec (0 :: rest) = .ok (none, rest)) ∧
    (∀ flag rest t r, flag ≠ 0 → dec rest = .ok (t, r) →
      decode_array_trans dec (flag :: rest) = .ok (some t, r)) ∧
    (∀ flag rest e, flag ≠ 0 → dec rest = .error e →
      decode_array_trans dec (flag :: rest) = .error e) ∧
    (∀ p it k idx sel t, encode_value (.ARRAY p it k idx sel (some t)) =
      15 :: (encode_value p ++ encode_value it ++ encode_string k ++
        encInt64 (idx.length : Int) ++ encInts idx ++
        (if sel then 1 else 0) :: 1 :: encode_value t)) ∧
    (∀ p it k idx sel, encode_value (.ARRAY p it k idx sel none) =
      15 :: (encode_value p ++ encode_value it ++ encode_string k ++
        encInt64 (idx.length : Int) ++ encInts idx ++
        (if sel then 1 else 0) :: [0])) := by
  refine ⟨rfl, fun rest => rfl, ?_, ?_, fun p it k idx sel t => rfl,
    fun p it k idx sel => rfl⟩
  · intro flag rest t r hflag hdec
    simp [decode_array_trans, hflag, hdec]
  · intro flag rest e hflag hdec
    simp [decode_array_trans, hflag, hdec]

/-- C5 (witness): flag byte 0 consumed with no nested decode; flag byte 2
consumed with the nested NONE decoded; empty tail is missing-data. -/
theorem claim_C5_witness :
    decode_array_trans (decode_valueF [] 1) [0, 7] = .ok (none, [7]) ∧
    decode_array_trans (decode_valueF [] 1) [2, 0, 9] = .ok (some .NONE, [9]) ∧
    decode_array_trans (decode_valueF [] 1) [] = .error .MissingData := by
  have H := claim_C5_array_flag (decode_valueF [] 1)
  exact ⟨H.2.1 [7], H.2.2.1 2 [0, 9] .NONE [9] (by decide) rfl, H.1⟩

/-- C6: the first byte of every encoding is the variant's one-byte
discriminant, the discriminant table is exactly the tag table of the spec
(None=0 .. Blob=20), and encode(Integer 42) is the 9 bytes
02 2A 00 00 00 00 00 00 00. -/
theorem claim_C6_tag_byte :
    (∀ v : CdcValue, (encode_value v).head? = some v.discriminant) ∧
    encode_value (.INTEGER 42) = [2, 42, 0, 0, 0, 0, 0, 0, 0] ∧
    (.NONE : CdcValue).discriminant = 0 ∧
    (∀ b, (.BOOL b : CdcValue).discriminant = 1) ∧
    (∀ i, (.INTEGER i : CdcValue).discriminant = 2) ∧
    (∀ bits, (.FLOAT bits : CdcValue).discriminant = 3) ∧
    (∀ s, (.STRING s : CdcValue).discriminant = 4) ∧
    (∀ l, (.LIST l : CdcValue).discriminant = 5) ∧
    (∀ m, (.MAP m : CdcValue).discriminant = 6) ∧
    (∀ s, (.SLICE s : CdcValue).discriminant = 7) ∧
    (∀ it, (.ITEM it : CdcValue).discriminant = 8) ∧
    (∀ ix, (.INDEXABLE ix : CdcValue).discriminant = 9) ∧
    (∀ c, (.COMMAND c : CdcValue).discriminant = 10) ∧
    (∀ h f, (.CALLABLE h f : CdcValue).discriminant = 11) ∧
    (∀ e, (.ERROR e : CdcValue).discriminant = 12) ∧
    (∀ id args kwargs, (.TRAIT id args kwargs : CdcValue).discriminant = 13) ∧
    (∀ tid rep attrs, (.OBJECT tid rep attrs : CdcValue).discriminant = 14) ∧
    (∀ p it k idx sel tr, (.ARRAY p it k idx sel tr : CdcValue).discriminant = 15) ∧
    (∀ ref meta, (.PACKAGE ref meta : CdcValue).discriminant = 16) ∧
    (∀ w, (.VEC2D w : CdcValue).discriminant = 17) ∧
    (∀ w, (.VEC3D w : CdcValue).discriminant = 18) ∧
    (.RESOURCE_ACCESS : CdcValue).discriminant = 19 ∧
    (∀ d, (.BLOB d : CdcValue).discriminant = 20) := by
  refine ⟨fun v => ?_, by decide, rfl, fun _ => rfl, fun _ => rfl, fun _ => rfl,
    fun _ => rfl, fun _ => rfl, fun _ => rfl, fun _ => rfl, fun _ => rfl,
    fun _ => rfl, fun _ => rfl, fun _ _ => rfl, fun _ => rfl, fun _ _ _ => rfl,
    fun _ _ _ => rfl, fun _ _ _ _ _ _ => rfl, fun _ _ => rfl, fun _ => rfl,
    fun _ => rfl, rfl, fun _ => rfl⟩
  cases v <;> try rfl
  rename_i tr
  cases tr <;> rfl

/-- C7: a SLICE frame built from any two well-formed callable-free nested
encodings decodes through the per-slot check sliceSlot: it succeeds (with
the two optional bounds) exactly when each slot is NONE or INTEGER, and
any other decoded variant in either slot makes the whole decode fail with
the unknown-type error, since sliceSlot maps every other variant to
unknown-type. -/
theorem claim_C7_slice_slots (env : Registry) (v1 v2 : CdcValue)
    (hw1 : CdcValue.wf v1 = true) (hc1 : CdcValue.callableFree v1 = true)
    (hw2 : CdcValue.wf v2 = true) (hc2 : CdcValue.callableFree v2 = true)
    (rest : List Nat) :
    decode_value env (7 :: (encode_value v1 ++ (encode_value v2 ++ rest))) =
      dtry (sliceSlot v1) (fun so =>
        dtry (sliceSlot v2) (fun tp => .ok (.SLICE ⟨so, tp⟩, rest))) ∧
    sliceSlot .NONE = .ok none ∧
    (∀ i, sliceSlot (.INTEGER i) = .ok (some i)) ∧
    (∀ w : CdcValue, w.discriminant ≠ 0 → w.discriminant ≠ 2 →
      sliceSlot w = .error .UnknownType) := by
  refine ⟨?_, rfl, fun i => rfl, ?_⟩
  · show decode_valueF env
        ((7 :: (encode_value v1 ++ (encode_value v2 ++ rest))).length + 1)
        (7 :: (encode_value v1 ++ (encode_value v2 ++ rest))) = _
    generalize hN : (7 :: (encode_value v1 ++ (encode_value v2 ++ rest))).length = N
    have h1 : decode_valueF env N (encode_value v1 ++ (encode_value v2 ++ rest)) =
        .ok (v1, encode_value v2 ++ rest) :=
      decode_encode_valueF env N v1 hw1 hc1
        (by rw [← hN]; simp only [List.length_cons, List.length_append]; omega) _
    have h2 : decode_valueF env N (encode_value v2 ++ rest) = .ok (v2, rest) :=
      decode_encode_valueF env N v2 hw2 hc2
        (by rw [← hN]; simp only [List.length_cons, List.length_append]; omega) _
    simp [decode_valueF, dstep, h1, h2]
  · intro w h0 h2
    cases w <;> first | rfl | exact absurd rfl h0 | exact absurd rfl h2

/-- C7 (witness): INTEGER/NONE slots succeed; an INTEGER/BOOL pair fails
with unknown-type. -/
theorem claim_C7_witness :
    decode_value [] (7 :: (encode_value (.INTEGER 4) ++ (encode_value (.BOOL true) ++ [6]))) =
      .error .UnknownType ∧
    decode_value [] (7 :: (encode_value (.INTEGER 4) ++ (encode_value .NONE ++ [6]))) =
      .ok (.SLICE ⟨some 4, none⟩, [6]) := by
  have H1 := (claim_C7_slice_slots [] (.INTEGER 4) (.BOOL true)
    (by decide) (by decide) (by decide) (by decide) [6]).1
  have H2 := (claim_C7_slice_slots [] (.INTEGER 4) .NONE
    (by decide) (by decide) (by decide) (by decide) [6]).1
  exact ⟨by rw [H1]; rfl, by rw [H2]; rfl⟩

/-- C8: the client's mapping from the received taxonomy string to the
typed error kind is the pure function ConnectionError.from_reply, sending
the four Tom::GScript exception strings to Break / Attribute / Import /
Index and every other string to Request, independently of the other reply
fields. -/
theorem claim_C8_error_mapping (d l : String) (c : Int) (bts : List Nat) :
    ConnectionError.from_reply ⟨"Tom::GScript::BreakException", d, c, l, bts⟩ = .Break ∧
    ConnectionError.from_reply ⟨"Tom::GScript::AttributeException", d, c, l, bts⟩ = .Attribute ∧
    ConnectionError.from_reply ⟨"Tom::GScript::ImportException", d, c, l, bts⟩ = .Import ∧
    ConnectionError.from_reply ⟨"Tom::GScript::IndexException", d, c, l, bts⟩ = .Index ∧
    (∀ s : String, s ≠ "Tom::GScript::BreakException" →
      s ≠ "Tom::GScript::AttributeException" →
      s ≠ "Tom::GScript::ImportException" →
      s ≠ "Tom::GScript::IndexException" →
      ConnectionError.from_reply ⟨s, d, c, l, bts⟩ = .Request) := by
  refine ⟨rfl, rfl, rfl, rfl, ?_⟩
  intro s h1 h2 h3 h4
  simp [ConnectionError.from_reply, connection.error.ABORT, connection.error.ATTRIBUTE,
    connection.error.IMPORT, connection.error.INDEX, h1, h2, h3, h4]

/-- C8 (witness): an IndexException string maps to the index kind, an
unknown string to the request kind, with the other fields arbitrary. -/
theorem claim_C8_witness :
    ConnectionError.from_reply ⟨"Tom::GScript::IndexException", "d", 7, "l", [1]⟩ = .Index ∧
    ConnectionError.from_reply ⟨"ServerError", "d", 7, "l", [1]⟩ = .Request := by
  have H := claim_C8_error_mapping "d" "l" 7 [1]
  exact ⟨H.2.2.2.1, H.2.2.2.2 "ServerError" (by decide) (by decide) (by decide) (by decide)⟩

/-- C9: parse_connection_config defaults apikey to the empty string,
interpreter_id to the freshly generated UUID string, and strip_tracebacks
to true — both with no query at all and when the query carries no pair
with the respective key — while an explicitly given apikey or
interpreter_id is taken verbatim and a present strip_tracebacks yields
true exactly when its value is the string "1". -/
theorem claim_C9_parse_config (uuid base key v : List Char)
    (hq : ('?' : Char) ∉ base) (hk1 : ('&' : Char) ∉ key) (hk2 : ('=' : Char) ∉ key)
    (hv1 : ('&' : Char) ∉ v) (hv2 : ('=' : Char) ∉ v) :
    (∀ url : List Char, ('?' : Char) ∉ url →
      parse_connection_config uuid url = ⟨url, [], uuid, true⟩) ∧
    (∀ query : List Char,
      ((∀ p ∈ splitOnChar '&' query, ∀ kv, paramKV p = some kv →
          kv.1 ≠ "apikey".toList) →
        (parse_connection_config uuid (base ++ '?' :: query)).api_key = []) ∧
      ((∀ p ∈ splitOnChar '&' query, ∀ kv, paramKV p = some kv →
          kv.1 ≠ "interpreter_id".toList) →
        (parse_connection_config uuid (base ++ '?' :: query)).interpreter_id = uuid) ∧
      ((∀ p ∈ splitOnChar '&' query, ∀ kv, paramKV p = some kv →
          kv.1 ≠ "strip_tracebacks".toList) →
        (parse_connection_config uuid (base ++ '?' :: query)).strip_tracebacks = true)) ∧
    (key = "apikey".toList →
      parse_connection_config uuid (base ++ '?' :: (key ++ '=' :: v)) =
        ⟨base ++ '?' :: (key ++ '=' :: v), v, uuid, true⟩) ∧
    (key = "interpreter_id".toList →
      parse_connection_config uuid (base ++ '?' :: (key ++ '=' :: v)) =
        ⟨base ++ '?' :: (key ++ '=' :: v), [], v, true⟩) ∧
    (key = "strip_tracebacks".toList →
      ((parse_connection_config uuid (base ++ '?' :: (key ++ '=' :: v))).strip_tracebacks
        = true ↔ v = "1".toList)) := by
  have hone : ∀ query : List Char,
      parse_connection_config uuid (base ++ '?' :: query) =
        (splitOnChar '&' query).foldl applyParam ⟨base ++ '?' :: query, [], uuid, true⟩ := by
    intro query
    simp only [parse_connection_config, queryAfter_append hq query]
  have hsingle : splitOnChar '&' (key ++ '=' :: v) = [key ++ '=' :: v] := by
    apply splitOnChar_not_mem
    intro hm
    rcases List.mem_append.mp hm with hmm | hmm
    · exact hk1 hmm
    · rcases List.mem_cons.mp hmm with hmm | hmm
      · exact absurd hmm (by decide)
      · exact hv1 hmm
  have hkv : paramKV (key ++ '=' :: v) = some (key, v) := by
    simp [paramKV, splitOnChar_append_cons hk2 v, splitOnChar_not_mem hv2]
  refine ⟨?_, ?_, ?_, ?_, ?_⟩
  · intro url hu
    simp [parse_connection_config, queryAfter_not_mem hu]
  · intro query
    refine ⟨?_, ?_, ?_⟩
    · intro hnone
      rw [hone query]
      exact foldl_applyParam_api_key _ _ hnone
    · intro hnone
      rw [hone query]
      exact foldl_applyParam_interpreter_id _ _ hnone
    · intro hnone
      rw [hone query]
      exact foldl_applyParam_strip_tracebacks _ _ hnone
  · intro hkey
    subst hkey
    rw [hone _, hsingle]
    simp only [List.foldl_cons, List.foldl_nil, applyParam, hkv]
    simp
  · intro hkey
    subst hkey
    rw [hone _, hsingle]
    simp only [List.foldl_cons, List.foldl_nil, applyParam, hkv]
    simp
  · intro hkey
    subst hkey
    rw [hone _, hsingle]
    simp only [List.foldl_cons, List.foldl_nil, applyParam, hkv]
    simp

/-- C9 (witness): strip_tracebacks=1 in the query yields true; a URL with
no query yields all defaults. -/
theorem claim_C9_witness :
    (parse_connection_config ("u".toList)
      (("ws://h".toList) ++ '?' :: ("strip_tracebacks".toList ++ '=' :: "1".toList))).strip_tracebacks
        = true ∧
    parse_connection_config ("u".toList) ("ws://h".toList) =
      ⟨"ws://h".toList, [], "u".toList, true⟩ := by
  have H := claim_C9_parse_config "u".toList "ws://h".toList "strip_tracebacks".toList
    "1".toList (by decide) (by decide) (by decide) (by decide) (by decide)
  exact ⟨(H.2.2.2.2 rfl).mpr rfl, H.1 "ws://h".toList (by decide)⟩

/-- C10: Item::equals returns Ok(true) on the fast path — equal id and
equal category — for every connection state including none, without
issuing any request (the result does not depend on the request function),
regardless of the stage fields; when id or category differ, the result
defers to the server-side EQUAL request (and is the request error when no
connection has been initialized). -/
theorem claim_C10_item_equals (self other : Item) :
    (self.id = other.id → self.category = other.category →
      ∀ conn : Option ReqFun, Item.equals conn self other = .ok true) ∧
    (¬ (self.category = other.category ∧ self.id = other.id) →
      Item.equals none self other = .error .Request ∧
      (∀ (req : ReqFun) (result : Bool),
        req EQUAL [([105, 116, 101, 109], .MAP self.to_map),
                   ([111, 116, 104, 101, 114], .MAP other.to_map)] = .ok (.BOOL result) →
        Item.equals (some req) self other = .ok result) ∧
      (∀ (req : ReqFun) (e : ConnectionError),
        req EQUAL [([105, 116, 101, 109], .MAP self.to_map),
                   ([111, 116, 104, 101, 114], .MAP other.to_map)] = .error e →
        Item.equals (some req) self other = .error e)) := by
  constructor
  · intro h1 h2 conn
    simp only [Item.equals]
    rw [if_pos ⟨h2, h1⟩]
  · intro hne
    refine ⟨?_, ?_, ?_⟩
    · simp only [Item.equals]
      rw [if_neg hne]
    · intro req result hreq
      simp only [Item.equals, hreq]
      rw [if_neg hne]
    · intro req e hreq
      simp only [Item.equals, hreq]
      rw [if_neg hne]

/-- C10 (witness): items differing only in stage compare Ok(true) with no
connection; items with different ids and no connection give the request
error. -/
theorem claim_C10_witness :
    Item.equals none ⟨[1], 2, 3⟩ ⟨[1], 2, 9⟩ = .ok true ∧
    Item.equals none ⟨[1], 2, 3⟩ ⟨[2], 2, 3⟩ = .error .Request := by
  exact ⟨(claim_C10_item_equals ⟨[1], 2, 3⟩ ⟨[1], 2, 9⟩).1 rfl rfl none,
    ((claim_C10_item_equals ⟨[1], 2, 3⟩ ⟨[2], 2, 3⟩).2 (by decide)).1⟩

end Gom
